import Mathlib

/-!
Verification of the `mas::heap` binary-heap algorithms (src/src/mas/core/heap.hpp)
and of the bounding-volume-tree layer declared in the same header.

The heap algorithms are shallowly embedded: the random-access range
`[first, last)` is modelled as a function `f : Nat → α` together with an
explicit length, and the comparison functor is a boolean comparator that is
assumed to be a strict weak order.  All index arithmetic follows the C++
source; the source computes `(pos - 1) / 2` with signed division truncating
toward zero, which coincides with truncated `Nat` subtraction followed by
division at every call site (in particular `(0 - 1) / 2 = 0` in both).
-/

namespace mas
namespace heap

variable {α : Type}

/-- A boolean comparator that is a strict weak order:
`cmp a b = true` means `a < b`; asymmetry plus negative transitivity. -/
structure SWO (cmp : α → α → Bool) : Prop where
  asymm : ∀ a b, cmp a b = true → cmp b a = false
  negtrans : ∀ a b c, cmp a c = true → cmp a b = true ∨ cmp b c = true

theorem SWO.irrefl {cmp : α → α → Bool} (h : SWO cmp) (a : α) : cmp a a = false := by
  cases hh : cmp a a with
  | false => rfl
  | true => have := h.asymm a a hh; rw [hh] at this; exact this

theorem SWO.le_trans {cmp : α → α → Bool} (h : SWO cmp) {a b c : α}
    (h1 : cmp b a = false) (h2 : cmp c b = false) : cmp c a = false := by
  cases hh : cmp c a with
  | false => rfl
  | true =>
    rcases h.negtrans c b a hh with h3 | h3
    · rw [h2] at h3; exact h3.symm
    · rw [h1] at h3; exact h3.symm

/-- From `a ≤ b` (as `cmp b a = false`) and `b < c` conclude `a < c`. -/
theorem SWO.lt_of_le_of_lt {cmp : α → α → Bool} (h : SWO cmp) {a b c : α}
    (h1 : cmp b a = false) (h2 : cmp b c = true) : cmp a c = true := by
  rcases h.negtrans b a c h2 with h3 | h3
  · rw [h1] at h3; exact absurd h3 (by simp)
  · exact h3

/-- From `a < b` and `b ≤ c` (as `cmp c b = false`) conclude `a < c`. -/
theorem SWO.lt_of_lt_of_le {cmp : α → α → Bool} (h : SWO cmp) {a b c : α}
    (h1 : cmp a b = true) (h2 : cmp c b = false) : cmp a c = true := by
  rcases h.negtrans a c b h1 with h3 | h3
  · exact h3
  · rw [h2] at h3; exact absurd h3 (by simp)

theorem SWO.lt_trans {cmp : α → α → Bool} (h : SWO cmp) {a b c : α}
    (h1 : cmp a b = true) (h2 : cmp b c = true) : cmp a c = true :=
  h.lt_of_lt_of_le h1 (h.asymm b c h2)

/-- Pointwise array update: the model of `*(first + i) = v`. -/
def upd (f : Nat → α) (i : Nat) (v : α) : Nat → α :=
  fun j => if j = i then v else f j

@[simp] theorem upd_same (f : Nat → α) (i : Nat) (v : α) : upd f i v i = v := by
  simp [upd]

theorem upd_other (f : Nat → α) {i j : Nat} (v : α) (hj : j ≠ i) : upd f i v j = f j := by
  simp [upd, hj]

/-- The list of values stored in the range `[first, first + n)`. -/
def listOf (f : Nat → α) (n : Nat) : List α :=
  (List.range n).map f

/-- The multiset of values stored in the range `[first, first + n)`. -/
def mset (f : Nat → α) (n : Nat) : Multiset α :=
  (listOf f n : List α)

@[simp] theorem listOf_zero (f : Nat → α) : listOf f 0 = [] := by
  simp [listOf]

theorem listOf_succ (f : Nat → α) (n : Nat) :
    listOf f (n + 1) = listOf f n ++ [f n] := by
  simp [listOf, List.range_succ]

theorem listOf_congr {f g : Nat → α} {n : Nat} (h : ∀ j, j < n → f j = g j) :
    listOf f n = listOf g n := by
  induction n with
  | zero => simp
  | succ k ih =>
    rw [listOf_succ, listOf_succ, ih fun j hj => h j (Nat.lt_succ_of_lt hj),
      h k (Nat.lt_succ_self k)]

theorem mset_succ (f : Nat → α) (n : Nat) :
    mset f (n + 1) = mset f n + {f n} := by
  rw [mset, listOf_succ, ← Multiset.coe_singleton (f n), ← Multiset.coe_add]
  rfl

theorem mset_congr {f g : Nat → α} {n : Nat} (h : ∀ j, j < n → f j = g j) :
    mset f n = mset g n := by
  unfold mset; rw [listOf_congr h]

theorem mem_mset {f : Nat → α} {n : Nat} {a : α} :
    a ∈ mset f n ↔ ∃ i, i < n ∧ f i = a := by
  simp [mset, listOf]

/-- Updating position `i < n` replaces one occurrence of `f i` by `v`
in the stored multiset. -/
theorem mset_upd {f : Nat → α} {i n : Nat} (v : α) (hi : i < n) :
    mset (upd f i v) n + {f i} = mset f n + {v} := by
  induction n with
  | zero => exact absurd hi (Nat.not_lt_zero i)
  | succ k ih =>
    rcases Nat.lt_succ_iff_lt_or_eq.mp hi with hik | hik
    · have hne : k ≠ i := Nat.ne_of_gt hik
      rw [mset_succ, mset_succ, upd_other f v hne, add_right_comm, ih hik,
        add_right_comm]
    · subst hik
      have heq : mset (upd f i v) i = mset f i := by
        apply mset_congr
        intro j hj
        exact upd_other f v (Nat.ne_of_lt hj)
      rw [mset_succ, mset_succ, heq, upd_same, add_right_comm]

/-- If two ranges agree from position `a` on and their prefixes of length `a`
hold the same multiset, then so does every longer prefix. -/
theorem mset_eq_upward {g f : Nat → α} {a N : Nat}
    (hbase : mset g a = mset f a) (hag : ∀ j, a ≤ j → j < N → g j = f j) :
    ∀ M, a ≤ M → M ≤ N → mset g M = mset f M := by
  intro M
  induction M with
  | zero => intro h1 _; rw [Nat.le_zero.mp h1] at hbase; exact hbase
  | succ k ih =>
    intro h1 h2
    rcases Nat.lt_or_ge a (k + 1) with hlt | hge
    · have hak : a ≤ k := Nat.lt_succ_iff.mp hlt
      rw [mset_succ, mset_succ, ih hak (Nat.le_of_succ_le h2),
        hag k hak (Nat.lt_of_succ_le h2)]
    · have : a = k + 1 := Nat.le_antisymm h1 hge
      rw [← this]; exact hbase

/-!  The heap algorithms, transcribed from `mas/core/heap.hpp`.  -/

/-- Model of `__up_heap` (heap.hpp:25-42): bubble the value `p` from position `pos`
toward the root, shifting down every ancestor that compares less than `p`. -/
def up_heap (cmp : α → α → Bool) (f : Nat → α) (pos : Nat) (p : α) : Nat → α :=
  if h : 0 < pos ∧ cmp (f ((pos - 1) / 2)) p = true then
    up_heap cmp (upd f pos (f ((pos - 1) / 2))) ((pos - 1) / 2) p
  else
    upd f pos p
termination_by pos
decreasing_by
  exact Nat.lt_of_le_of_lt (Nat.div_le_self _ 2) (Nat.pred_lt (Nat.pos_iff_ne_zero.mp h.1))

/-- The child index selected by `__down_heap`'s loop body (heap.hpp:85-91):
the first child `2*hole+1`, advanced to the second child when that one exists
and compares larger. -/
def dh_child (cmp : α → α → Bool) (f : Nat → α) (length hole : Nat) : Nat :=
  if 2 * hole + 1 < length - 1 ∧ cmp (f (2 * hole + 1)) (f (2 * hole + 1 + 1)) = true then
    2 * hole + 2
  else
    2 * hole + 1

theorem dh_child_bounds (cmp : α → α → Bool) (f : Nat → α) {length hole : Nat}
    (h : 2 * hole + 1 < length) :
    hole < dh_child cmp f length hole ∧ dh_child cmp f length hole < length := by
  unfold dh_child
  split <;> omega

/-- Model of `__down_heap` (heap.hpp:77-110): sink the value `p` from the hole at
`hole`, repeatedly pulling up the larger child until `p` dominates. -/
def down_heap (cmp : α → α → Bool) (f : Nat → α) (length hole : Nat) (p : α) : Nat → α :=
  if h : 2 * hole + 1 < length then
    if cmp (f (dh_child cmp f length hole)) p = true then
      upd f hole p
    else
      down_heap cmp (upd f hole (f (dh_child cmp f length hole))) length
        (dh_child cmp f length hole) p
  else
    upd f hole p
termination_by length - hole
decreasing_by
  have := dh_child_bounds cmp f h
  omega

/-- Model of `__pop_heap` (heap.hpp:152-163): save the value at `result`, move the root
there, and sink the saved value from the root of `[first, first+last)`. -/
def pop_heap_aux (cmp : α → α → Bool) (f : Nat → α) (last result : Nat) : Nat → α :=
  down_heap cmp (upd f result (f 0)) last 0 (f result)

/-- Model of `pop_heap` (heap.hpp:261-269): when the range has more than one element,
move the extreme element to position `n-1` and restore the heap on `[0, n-1)`. -/
def pop_heap (cmp : α → α → Bool) (f : Nat → α) (n : Nat) : Nat → α :=
  if 1 < n then pop_heap_aux cmp f (n - 1) (n - 1) else f

/-- The descending loop of `make_heap` (heap.hpp:191-193), processing parents
`k, k-1, ..., 0`. -/
def make_heap_loop (cmp : α → α → Bool) (length : Nat) : Nat → (Nat → α) → Nat → α
  | 0, f => down_heap cmp f length 0 (f 0)
  | k + 1, f => make_heap_loop cmp length k (down_heap cmp f length (k + 1) (f (k + 1)))

/-- Model of `make_heap` (heap.hpp:185-194): bubble down from the deepest parent
`(len-2)/2` to the root.  With signed division the C++ loop runs exactly when
`len ≥ 1` (for `len = 1` the start index `(1-2)/2` truncates to `0`), which is
what the guard below reproduces over `Nat`. -/
def make_heap (cmp : α → α → Bool) (f : Nat → α) (n : Nat) : Nat → α :=
  if n = 0 then f else make_heap_loop cmp n ((n - 2) / 2) f

/-- The loop of `sort_heap` (heap.hpp:295-302): repeatedly shrink the range by
one, popping the extreme element to the vacated slot. -/
def sort_heap_loop (cmp : α → α → Bool) : Nat → (Nat → α) → Nat → α
  | 0, f => f
  | 1, f => f
  | m + 2, f => sort_heap_loop cmp (m + 1) (pop_heap_aux cmp f (m + 1) (m + 1))

/-- Model of `sort_heap` (heap.hpp:295-302). -/
def sort_heap (cmp : α → α → Bool) (f : Nat → α) (n : Nat) : Nat → α :=
  sort_heap_loop cmp n f

/-- Model of `update_heap` (heap.hpp:414-428): bubble up when the parent is smaller,
else bubble down when the element is smaller than its parent.  Note that for
`pos = 0` the parent index `(pos-1)/2` evaluates to `0` (signed truncation in
the source, truncated subtraction here), so both tests compare the root with
itself. -/
def update_heap (cmp : α → α → Bool) (f : Nat → α) (n pos : Nat) : Nat → α :=
  if 0 < pos ∧ cmp (f ((pos - 1) / 2)) (f pos) = true then
    up_heap cmp f pos (f pos)
  else if cmp (f pos) (f ((pos - 1) / 2)) = true then
    down_heap cmp f n pos (f pos)
  else
    f

/-- The loop of `is_heap_until` (heap.hpp:328-347); `parent` tracks the loop
variable, the inspected children being `2*parent+1` and `2*parent+2`. -/
def is_heap_until_loop (cmp : α → α → Bool) (f : Nat → α) (n : Nat) (parent : Nat) : Nat :=
  if 2 * parent + 1 < n then
    if cmp (f parent) (f (2 * parent + 1)) = true then
      2 * parent + 1
    else if 2 * parent + 2 < n ∧ cmp (f parent) (f (2 * parent + 2)) = true then
      2 * parent + 2
    else
      is_heap_until_loop cmp f n (parent + 1)
  else
    n
termination_by n - parent
decreasing_by omega

/-- Model of `is_heap_until` (heap.hpp:328-347). -/
def is_heap_until (cmp : α → α → Bool) (f : Nat → α) (n : Nat) : Nat :=
  is_heap_until_loop cmp f n 0

/-- Model of `is_heap` (heap.hpp:387-391). -/
def is_heap (cmp : α → α → Bool) (f : Nat → α) (n : Nat) : Bool :=
  is_heap_until cmp f n == n

/-- The max binary heap property for the range `[0, n)`: no element compares
less than a child. -/
def IsHeap (cmp : α → α → Bool) (f : Nat → α) (n : Nat) : Prop :=
  ∀ i, i < n → 0 < i → cmp (f ((i - 1) / 2)) (f i) = false

instance decIsHeap (cmp : α → α → Bool) (f : Nat → α) (n : Nat) :
    Decidable (IsHeap cmp f n) := by
  unfold IsHeap; infer_instance

/-!  The subtree (descendant) relation on heap indices.  -/

/-- Relation `Desc i k` holds when `k` lies in the subtree rooted at index `i`. -/
inductive Desc : Nat → Nat → Prop
  | refl (i : Nat) : Desc i i
  | left {i k : Nat} : Desc (2 * i + 1) k → Desc i k
  | right {i k : Nat} : Desc (2 * i + 2) k → Desc i k

theorem Desc.ge {i k : Nat} (h : Desc i k) : i ≤ k := by
  induction h with
  | refl => exact Nat.le_refl _
  | left _ ih => omega
  | right _ ih => omega

theorem Desc.trans {i j k : Nat} (h1 : Desc i j) (h2 : Desc j k) : Desc i k := by
  induction h1 with
  | refl => exact h2
  | left _ ih => exact Desc.left (ih h2)
  | right _ ih => exact Desc.right (ih h2)

theorem desc_child_left (i : Nat) : Desc i (2 * i + 1) :=
  Desc.left (Desc.refl _)

theorem desc_child_right (i : Nat) : Desc i (2 * i + 2) :=
  Desc.right (Desc.refl _)

/-- For `k > 0`, `k` is a child of its parent index `(k-1)/2`. -/
theorem desc_parent_child {k : Nat} (hk : 0 < k) : Desc ((k - 1) / 2) k := by
  set p := (k - 1) / 2 with hp
  rcases Nat.even_or_odd k with he | ho
  · have hk2 : k = 2 * p + 2 := by
      rcases he with ⟨m, hm⟩; omega
    rw [hk2]
    exact desc_child_right p
  · have hk2 : k = 2 * p + 1 := by
      rcases ho with ⟨m, hm⟩; omega
    rw [hk2]
    exact desc_child_left p

theorem Desc.parent {i k : Nat} (h : Desc i k) (hne : k ≠ i) : Desc i ((k - 1) / 2) := by
  induction h with
  | refl => exact absurd rfl hne
  | @left j k h ih =>
    by_cases hk : k = 2 * j + 1
    · subst hk
      have : (2 * j + 1 - 1) / 2 = j := by omega
      rw [this]; exact Desc.refl j
    · exact Desc.left (ih hk)
  | @right j k h ih =>
    by_cases hk : k = 2 * j + 2
    · subst hk
      have : (2 * j + 2 - 1) / 2 = j := by omega
      rw [this]; exact Desc.refl j
    · exact Desc.right (ih hk)

/-- Any index below a strict descendant of `i` is at least `2*i+1`. -/
theorem Desc.ge_child {i k : Nat} (h : Desc i k) (hne : k ≠ i) : 2 * i + 1 ≤ k := by
  cases h with
  | refl => exact absurd rfl hne
  | left h => exact h.ge
  | right h => exact Nat.le_of_succ_le h.ge

/-- Every index is in the subtree of the root. -/
theorem desc_zero : ∀ k, Desc 0 k := by
  intro k
  induction k using Nat.strong_induction_on with
  | _ k ih =>
    rcases Nat.eq_zero_or_pos k with hk | hk
    · subst hk; exact Desc.refl 0
    · have hp : (k - 1) / 2 < k := by omega
      exact Desc.trans (ih _ hp) (desc_parent_child hk)

/-- Ancestors of a common index are comparable. -/
theorem desc_total {a b x : Nat} (h1 : Desc a x) (h2 : Desc b x) :
    Desc a b ∨ Desc b a := by
  induction h1 with
  | refl => exact Or.inr h2
  | @left j k h ih =>
    rcases ih h2 with h3 | h3
    · exact Or.inl (Desc.left h3)
    · by_cases hb : b = 2 * j + 1
      · subst hb; exact Or.inl (desc_child_left j)
      · have := h3.parent (Ne.symm hb)
        have hpar : (2 * j + 1 - 1) / 2 = j := by omega
        rw [hpar] at this
        exact Or.inr this
  | @right j k h ih =>
    rcases ih h2 with h3 | h3
    · exact Or.inl (Desc.right h3)
    · by_cases hb : b = 2 * j + 2
      · subst hb; exact Or.inl (desc_child_right j)
      · have := h3.parent (Ne.symm hb)
        have hpar : (2 * j + 2 - 1) / 2 = j := by omega
        rw [hpar] at this
        exact Or.inr this

/-- The subtrees of the two children of `i` are disjoint. -/
theorem desc_disjoint {i x : Nat} (h1 : Desc (2 * i + 1) x) (h2 : Desc (2 * i + 2) x) :
    False := by
  rcases desc_total h1 h2 with h3 | h3
  · have := h3.parent (by omega)
    have hpar : (2 * i + 2 - 1) / 2 = i := by omega
    rw [hpar] at this
    exact absurd this.ge (by omega)
  · exact absurd h3.ge (by omega)

/-- Inversion: a strict descendant of `i` descends through one of the children. -/
theorem Desc.step {i k : Nat} (h : Desc i k) (hne : k ≠ i) :
    Desc (2 * i + 1) k ∨ Desc (2 * i + 2) k := by
  cases h with
  | refl => exact absurd rfl hne
  | left h => exact Or.inl h
  | right h => exact Or.inr h

/-- Subtrees are closed under taking children. -/
theorem desc_of_parent_desc {h c : Nat} (hc : 0 < c) (hd : Desc h ((c - 1) / 2)) :
    Desc h c :=
  hd.trans (desc_parent_child hc)

/-!  Correctness of `__down_heap`.  -/

theorem down_heap_eq_stop (cmp : α → α → Bool) (f : Nat → α) {length hole : Nat} (p : α)
    (h1 : ¬ 2 * hole + 1 < length) :
    down_heap cmp f length hole p = upd f hole p := by
  rw [down_heap.eq_def]
  exact dif_neg h1

theorem down_heap_eq_break (cmp : α → α → Bool) (f : Nat → α) {length hole : Nat} (p : α)
    (h1 : 2 * hole + 1 < length) (h2 : cmp (f (dh_child cmp f length hole)) p = true) :
    down_heap cmp f length hole p = upd f hole p := by
  rw [down_heap.eq_def, dif_pos h1, if_pos h2]

theorem down_heap_eq_rec (cmp : α → α → Bool) (f : Nat → α) {length hole : Nat} (p : α)
    (h1 : 2 * hole + 1 < length) (h2 : cmp (f (dh_child cmp f length hole)) p = false) :
    down_heap cmp f length hole p =
      down_heap cmp (upd f hole (f (dh_child cmp f length hole))) length
        (dh_child cmp f length hole) p := by
  rw [down_heap.eq_def, dif_pos h1, if_neg (by simp [h2])]

theorem desc_dh_child (cmp : α → α → Bool) (f : Nat → α) (length hole : Nat) :
    Desc hole (dh_child cmp f length hole) := by
  unfold dh_child
  split
  · exact desc_child_right hole
  · exact desc_child_left hole

theorem dh_child_parent (cmp : α → α → Bool) (f : Nat → α) (length hole : Nat) :
    (dh_child cmp f length hole - 1) / 2 = hole := by
  unfold dh_child
  split <;> omega

/-- The selected child compares at least as large as either child of the hole. -/
theorem dh_child_max {cmp : α → α → Bool} (hs : SWO cmp) (f : Nat → α)
    {length hole : Nat} (h1 : 2 * hole + 1 < length) :
    ∀ c, c < length → (c - 1) / 2 = hole → 0 < c →
      cmp (f (dh_child cmp f length hole)) (f c) = false := by
  intro c hc hpar hc0
  have hcc : c = 2 * hole + 1 ∨ c = 2 * hole + 2 := by omega
  unfold dh_child
  split
  · next h2 =>
    rcases hcc with hcc | hcc <;> subst hcc
    · exact hs.asymm _ _ h2.2
    · exact hs.irrefl _
  · next h2 =>
    rcases hcc with hcc | hcc <;> subst hcc
    · exact hs.irrefl _
    · have h2f : cmp (f (2 * hole + 1)) (f (2 * hole + 1 + 1)) = false := by
        cases hcmp : cmp (f (2 * hole + 1)) (f (2 * hole + 1 + 1)) with
        | false => rfl
        | true => exact absurd ⟨by omega, hcmp⟩ h2
      exact h2f

/-- Frame property: `__down_heap` writes only inside the subtree of the hole (and inside the
range). -/
theorem down_heap_frame (cmp : α → α → Bool) :
    ∀ (f : Nat → α) (length hole : Nat) (p : α), hole < length →
      ∀ j, (¬ Desc hole j ∨ length ≤ j) → down_heap cmp f length hole p j = f j := by
  intro f length hole p
  induction f, length, hole, p using down_heap.induct cmp with
  | case1 f length hole p h1 h2 =>
    intro hh j hj
    rw [down_heap_eq_break cmp f p h1 h2]
    apply upd_other
    rcases hj with hj | hj
    · exact fun hjh => hj (hjh ▸ Desc.refl hole)
    · omega
  | case2 f length hole p h1 h2 ih =>
    intro hh j hj
    have hcb := dh_child_bounds cmp f h1
    rw [down_heap_eq_rec cmp f p h1 (by simpa using h2)]
    have hj' : ¬ Desc (dh_child cmp f length hole) j ∨ length ≤ j := by
      rcases hj with hj | hj
      · exact Or.inl fun hd => hj ((desc_dh_child cmp f length hole).trans hd)
      · exact Or.inr hj
    rw [ih hcb.2 j hj']
    apply upd_other
    rcases hj with hj | hj
    · exact fun hjh => hj (hjh ▸ Desc.refl hole)
    · omega
  | case3 f length hole p h1 =>
    intro hh j hj
    rw [down_heap_eq_stop cmp f p h1]
    apply upd_other
    rcases hj with hj | hj
    · exact fun hjh => hj (hjh ▸ Desc.refl hole)
    · omega

/-- Multiset effect: `__down_heap` replaces one occurrence of the hole value by `p` in the
stored multiset. -/
theorem down_heap_mset (cmp : α → α → Bool) :
    ∀ (f : Nat → α) (length hole : Nat) (p : α), hole < length →
      mset (down_heap cmp f length hole p) length + {f hole} = mset f length + {p} := by
  intro f length hole p
  induction f, length, hole, p using down_heap.induct cmp with
  | case1 f length hole p h1 h2 =>
    intro hh
    rw [down_heap_eq_break cmp f p h1 h2]
    exact mset_upd p hh
  | case2 f length hole p h1 h2 ih =>
    intro hh
    have hcb := dh_child_bounds cmp f h1
    have hne : dh_child cmp f length hole ≠ hole := Nat.ne_of_gt hcb.1
    rw [down_heap_eq_rec cmp f p h1 (by simpa using h2)]
    have e1 := ih hcb.2
    rw [upd_other f _ hne] at e1
    have e2 := mset_upd (f := f) (f (dh_child cmp f length hole)) hh
    have e3 : mset (down_heap cmp (upd f hole (f (dh_child cmp f length hole))) length
        (dh_child cmp f length hole) p) length + {f hole}
          + {f (dh_child cmp f length hole)}
        = mset f length + {p} + {f (dh_child cmp f length hole)} := by
      rw [add_right_comm, e1, add_right_comm, e2, add_right_comm]
    exact add_right_cancel e3
  | case3 f length hole p h1 =>
    intro hh
    rw [down_heap_eq_stop cmp f p h1]
    exact mset_upd p hh

/-- Main correctness of `__down_heap`: if every parent/child pair strictly
inside the subtree of the hole is in heap order, then afterwards every pair
inside the subtree (the hole included) is in heap order; moreover any bound
dominating `p` and both children of the hole dominates the final root of the
subtree. -/
theorem down_heap_main {cmp : α → α → Bool} (hs : SWO cmp) :
    ∀ (f : Nat → α) (length hole : Nat) (p : α), hole < length →
    (∀ c, c < length → Desc hole c → c ≠ hole → (c - 1) / 2 ≠ hole →
        cmp (f ((c - 1) / 2)) (f c) = false) →
    ((∀ c, c < length → Desc hole c → c ≠ hole →
        cmp (down_heap cmp f length hole p ((c - 1) / 2))
          (down_heap cmp f length hole p c) = false)
     ∧ (∀ b, cmp b p = false →
          (∀ c, c < length → (c - 1) / 2 = hole → 0 < c → cmp b (f c) = false) →
          cmp b (down_heap cmp f length hole p hole) = false)) := by
  intro f length hole p
  induction f, length, hole, p using down_heap.induct cmp with
  | case1 f length hole p h1 h2 =>
    -- the sunk value dominates the selected (larger) child: stop and write it
    intro hh hH
    rw [down_heap_eq_break cmp f p h1 h2]
    constructor
    · intro c hc hdesc hcne
      rw [upd_other f p hcne]
      by_cases hpar : (c - 1) / 2 = hole
      · have hc0 : 0 < c := by
          rcases Nat.eq_zero_or_pos c with hc0 | hc0
          · subst hc0; simp at hpar; omega
          · exact hc0
        rw [hpar, upd_same]
        have hmax := dh_child_max hs f h1 c hc hpar hc0
        exact hs.asymm _ _ (hs.lt_of_le_of_lt hmax h2)
      · rw [upd_other f p hpar]
        exact hH c hc hdesc hcne hpar
    · intro b hbp _
      rw [upd_same]
      exact hbp
  | case2 f length hole p h1 h2 ih =>
    intro hh hH
    set ch := dh_child cmp f length hole with hch
    have hle : cmp (f ch) p = false := by simpa using h2
    have hcb1 : hole < ch := (dh_child_bounds cmp f h1).1
    have hcb2 : ch < length := (dh_child_bounds cmp f h1).2
    have hchpar : (ch - 1) / 2 = hole := dh_child_parent cmp f length hole
    have hdch : Desc hole ch := desc_dh_child cmp f length hole
    have hch2 : ch = 2 * hole + 1 ∨ ch = 2 * hole + 2 := by omega
    -- re-establish the hypothesis for the recursive call
    have hH' : ∀ c, c < length → Desc ch c → c ≠ ch → (c - 1) / 2 ≠ ch →
        cmp (upd f hole (f ch) ((c - 1) / 2)) (upd f hole (f ch) c) = false := by
      intro c hc hd hcne hpne
      have hcge : ch ≤ c := hd.ge
      have hparge : ch ≤ (c - 1) / 2 := (hd.parent hcne).ge
      rw [upd_other f _ (by omega : c ≠ hole), upd_other f _ (by omega : (c - 1) / 2 ≠ hole)]
      exact hH c hc (hdch.trans hd) (by omega) (by omega)
    obtain ⟨C1, D1⟩ := ih hcb2 hH'
    rw [down_heap_eq_rec cmp f p h1 hle, ← hch]
    have ghole : down_heap cmp (upd f hole (f ch)) length ch p hole = f ch := by
      rw [down_heap_frame cmp _ length ch p hcb2 hole
        (Or.inl fun hd => absurd hd.ge (by omega))]
      exact upd_same f hole (f ch)
    constructor
    · intro c hc hdesc hcne
      by_cases hcch : c = ch
      · rw [hcch, hchpar, ghole]
        apply D1 (f ch) hle
        intro c' hc' hp' h0'
        rw [upd_other f _ (by omega : c' ≠ hole)]
        have hdc' : Desc hole ((c' - 1) / 2) := by rw [hp']; exact hdch
        have := hH c' hc' (desc_of_parent_desc h0' hdc') (by omega) (by omega)
        rw [hp'] at this
        exact this
      · by_cases hdc : Desc ch c
        · exact C1 c hc hdc hcch
        · -- `c` lies in the sibling subtree
          have hstep := hdesc.step hcne
          have hsib : ∃ sib, Desc sib c ∧ (sib - 1) / 2 = hole ∧ 0 < sib ∧
              ¬ Desc ch sib ∧ (sib = 2 * hole + 1 ∨ sib = 2 * hole + 2) := by
            rcases hch2 with hch2 | hch2 <;> rcases hstep with hs | hs
            · rw [← hch2] at hs; exact absurd hs hdc
            · refine ⟨2 * hole + 2, hs, by omega, by omega, ?_, Or.inr rfl⟩
              rw [hch2]; exact fun hd => absurd (hd.ge_child (by omega)) (by omega)
            · refine ⟨2 * hole + 1, hs, by omega, by omega, ?_, Or.inl rfl⟩
              rw [hch2]; exact fun hd => absurd hd.ge (by omega)
            · rw [← hch2] at hs; exact absurd hs hdc
          obtain ⟨sib, hsd, hsp, hs0, hnds, hsval⟩ := hsib
          by_cases hcsib : c = sib
          · -- the pair (hole, sibling)
            have hclen : sib < length := by rw [← hcsib]; exact hc
            rw [hcsib, hsp, ghole,
              down_heap_frame cmp _ length ch p hcb2 sib (Or.inl hnds),
              upd_other f _ (by omega : sib ≠ hole)]
            have hmax := dh_child_max hs f h1 sib hclen hsp hs0
            rw [← hch] at hmax
            exact hmax
          · -- a pair strictly inside the sibling subtree
            have hpd : Desc sib ((c - 1) / 2) := hsd.parent hcsib
            have hparge : sib ≤ (c - 1) / 2 := hpd.ge
            have hcge : sib ≤ c := hsd.ge
            have hchsib : ch ≠ sib := by
              intro he
              exact hnds (by rw [he]; exact Desc.refl sib)
            have hpch : ¬ Desc ch ((c - 1) / 2) := by
              intro hd
              rcases hch2 with hch2 | hch2 <;> rcases hsval with hsval | hsval
              · omega
              · rw [hch2] at hd; rw [hsval] at hpd; exact desc_disjoint hd hpd
              · rw [hch2] at hd; rw [hsval] at hpd; exact desc_disjoint hpd hd
              · omega
            rw [down_heap_frame cmp _ length ch p hcb2 c (Or.inl hdc),
              down_heap_frame cmp _ length ch p hcb2 _ (Or.inl hpch),
              upd_other f _ (by omega : c ≠ hole),
              upd_other f _ (by omega : (c - 1) / 2 ≠ hole)]
            exact hH c hc hdesc (by omega) (by omega)
    · intro b hbp hbc
      rw [ghole]
      exact hbc ch hcb2 hchpar (by omega)
  | case3 f length hole p h1 =>
    intro hh hH
    rw [down_heap_eq_stop cmp f p h1]
    constructor
    · intro c hc hdesc hcne
      have := hdesc.ge_child hcne
      omega
    · intro b hbp _
      rw [upd_same]
      exact hbp

/-- In a max heap the root dominates every element of the range. -/
theorem root_le {cmp : α → α → Bool} (hs : SWO cmp) {f : Nat → α} {n : Nat}
    (hh : IsHeap cmp f n) : ∀ i, i < n → cmp (f 0) (f i) = false := by
  intro i
  induction i using Nat.strong_induction_on with
  | _ i ih =>
    intro hi
    rcases Nat.eq_zero_or_pos i with h0 | h0
    · subst h0; exact hs.irrefl _
    · have hp := hh i hi h0
      have hploc : (i - 1) / 2 < i := by omega
      exact hs.le_trans hp (ih _ hploc (by omega))

/-!  `is_heap_until` / `is_heap` versus the heap predicate.  -/

theorem ihul_found1 {cmp : α → α → Bool} {f : Nat → α} {n x : Nat}
    (h1 : 2 * x + 1 < n) (h2 : cmp (f x) (f (2 * x + 1)) = true) :
    is_heap_until_loop cmp f n x = 2 * x + 1 := by
  rw [is_heap_until_loop.eq_def, if_pos h1, if_pos h2]

theorem ihul_found2 {cmp : α → α → Bool} {f : Nat → α} {n x : Nat}
    (h1 : 2 * x + 1 < n) (h2 : ¬ cmp (f x) (f (2 * x + 1)) = true)
    (h3 : 2 * x + 2 < n ∧ cmp (f x) (f (2 * x + 2)) = true) :
    is_heap_until_loop cmp f n x = 2 * x + 2 := by
  rw [is_heap_until_loop.eq_def, if_pos h1, if_neg h2, if_pos h3]

theorem ihul_rec {cmp : α → α → Bool} {f : Nat → α} {n x : Nat}
    (h1 : 2 * x + 1 < n) (h2 : ¬ cmp (f x) (f (2 * x + 1)) = true)
    (h3 : ¬ (2 * x + 2 < n ∧ cmp (f x) (f (2 * x + 2)) = true)) :
    is_heap_until_loop cmp f n x = is_heap_until_loop cmp f n (x + 1) := by
  rw [is_heap_until_loop.eq_def, if_pos h1, if_neg h2, if_neg h3]

theorem ihul_stop {cmp : α → α → Bool} {f : Nat → α} {n x : Nat}
    (h1 : ¬ 2 * x + 1 < n) : is_heap_until_loop cmp f n x = n := by
  rw [is_heap_until_loop.eq_def, if_neg h1]

theorem ihul_of_isHeap {cmp : α → α → Bool} {f : Nat → α} {n : Nat}
    (hh : IsHeap cmp f n) : ∀ parent, is_heap_until_loop cmp f n parent = n := by
  intro parent
  induction parent using is_heap_until_loop.induct cmp f n with
  | case1 x h1 h2 =>
    have hhx := hh (2 * x + 1) h1 (by omega)
    have he : (2 * x + 1 - 1) / 2 = x := by omega
    rw [he] at hhx
    rw [hhx] at h2
    simp at h2
  | case2 x h1 h2 h3 =>
    have hhx := hh (2 * x + 2) h3.1 (by omega)
    have he : (2 * x + 2 - 1) / 2 = x := by omega
    rw [he] at hhx
    rw [hhx] at h3
    simp at h3
  | case3 x h1 h2 h3 ih =>
    rw [ihul_rec h1 h2 h3]
    exact ih
  | case4 x h1 =>
    exact ihul_stop h1

theorem isHeap_of_ihul {cmp : α → α → Bool} {f : Nat → α} {n : Nat} :
    ∀ parent, is_heap_until_loop cmp f n parent = n →
      ∀ c, c < n → 0 < c → parent ≤ (c - 1) / 2 → cmp (f ((c - 1) / 2)) (f c) = false := by
  intro parent
  induction parent using is_heap_until_loop.induct cmp f n with
  | case1 x h1 h2 =>
    intro heq
    rw [ihul_found1 h1 h2] at heq
    omega
  | case2 x h1 h2 h3 =>
    intro heq
    rw [ihul_found2 h1 h2 h3] at heq
    exact absurd heq (by omega)
  | case3 x h1 h2 h3 ih =>
    intro heq c hc hc0 hpar
    rw [ihul_rec h1 h2 h3] at heq
    by_cases hpx : (c - 1) / 2 = x
    · have hcc : c = 2 * x + 1 ∨ c = 2 * x + 2 := by omega
      rw [hpx]
      rcases hcc with hcc | hcc <;> subst hcc
      · cases hcmp : cmp (f x) (f (2 * x + 1)) with
        | false => rfl
        | true => exact absurd hcmp h2
      · cases hcmp : cmp (f x) (f (2 * x + 2)) with
        | false => rfl
        | true => exact absurd ⟨hc, hcmp⟩ h3
    · exact ih heq c hc hc0 (by omega)
  | case4 x h1 =>
    intro _ c hc hc0 hpar
    exfalso
    omega

/-- The source `is_heap` agrees with the heap predicate. -/
theorem is_heap_iff (cmp : α → α → Bool) (f : Nat → α) (n : Nat) :
    is_heap cmp f n = true ↔ IsHeap cmp f n := by
  unfold is_heap is_heap_until
  constructor
  · intro h
    rw [beq_iff_eq] at h
    intro i hi h0i
    exact isHeap_of_ihul 0 h i hi h0i (Nat.zero_le _)
  · intro hh
    rw [beq_iff_eq]
    exact ihul_of_isHeap hh 0

/-!  Main specifications of `pop_heap`, `make_heap` and `sort_heap`.  -/

/-- Specification of `pop_heap` on a non-empty heap: the old root (a maximal element) lands at
position `n-1`, the prefix `[0, n-1)` is again a heap, and the contents are
preserved as a multiset. -/
theorem pop_heap_spec {cmp : α → α → Bool} (hs : SWO cmp) (f : Nat → α) (n : Nat)
    (hn : 1 ≤ n) (hh : IsHeap cmp f n) :
    pop_heap cmp f n (n - 1) = f 0
    ∧ IsHeap cmp (pop_heap cmp f n) (n - 1)
    ∧ mset (pop_heap cmp f n) n = mset f n := by
  rcases Nat.lt_or_ge 1 n with h2 | h2
  · unfold pop_heap pop_heap_aux
    rw [if_pos h2]
    have hlen : 0 < n - 1 := by omega
    have hH : ∀ c, c < n - 1 → Desc 0 c → c ≠ 0 → (c - 1) / 2 ≠ 0 →
        cmp (upd f (n - 1) (f 0) ((c - 1) / 2)) (upd f (n - 1) (f 0) c) = false := by
      intro c hc _ hc0 _
      rw [upd_other f _ (by omega : c ≠ n - 1),
        upd_other f _ (by omega : (c - 1) / 2 ≠ n - 1)]
      exact hh c (by omega) (by omega)
    obtain ⟨C1, _⟩ := down_heap_main hs (upd f (n - 1) (f 0)) (n - 1) 0 (f (n - 1)) hlen hH
    have hfr := down_heap_frame cmp (upd f (n - 1) (f 0)) (n - 1) 0 (f (n - 1)) hlen
    have htop : down_heap cmp (upd f (n - 1) (f 0)) (n - 1) 0 (f (n - 1)) (n - 1) = f 0 := by
      rw [hfr (n - 1) (Or.inr (le_refl _))]
      exact upd_same f (n - 1) (f 0)
    refine ⟨htop, ?_, ?_⟩
    · intro i hi h0i
      exact C1 i hi (desc_zero i) (by omega)
    · have e1 := down_heap_mset cmp (upd f (n - 1) (f 0)) (n - 1) 0 (f (n - 1)) hlen
      rw [upd_other f _ (by omega : (0 : Nat) ≠ n - 1)] at e1
      have hpre : mset (upd f (n - 1) (f 0)) (n - 1) = mset f (n - 1) :=
        mset_congr fun j hj => upd_other f _ (by omega)
      rw [hpre] at e1
      have hsucc : n - 1 + 1 = n := by omega
      calc mset (down_heap cmp (upd f (n - 1) (f 0)) (n - 1) 0 (f (n - 1))) n
          = mset (down_heap cmp (upd f (n - 1) (f 0)) (n - 1) 0 (f (n - 1))) (n - 1 + 1) := by
            rw [hsucc]
        _ = mset (down_heap cmp (upd f (n - 1) (f 0)) (n - 1) 0 (f (n - 1))) (n - 1)
              + {f 0} := by rw [mset_succ, htop]
        _ = mset f (n - 1) + {f (n - 1)} := e1
        _ = mset f (n - 1 + 1) := (mset_succ f (n - 1)).symm
        _ = mset f n := by rw [hsucc]
  · have hn1 : n = 1 := by omega
    subst hn1
    unfold pop_heap
    rw [if_neg (by omega)]
    refine ⟨rfl, ?_, rfl⟩
    intro i hi h0i
    omega

/-- The descending loop of `make_heap`: processing parents `k, ..., 0`
establishes the heap property assuming all pairs below parents `> k` are
already in order. -/
theorem make_heap_loop_spec {cmp : α → α → Bool} (hs : SWO cmp) (n : Nat) :
    ∀ k f, k < n →
      (∀ c, c < n → 0 < c → k < (c - 1) / 2 → cmp (f ((c - 1) / 2)) (f c) = false) →
      (IsHeap cmp (make_heap_loop cmp n k f) n
       ∧ mset (make_heap_loop cmp n k f) n = mset f n) := by
  intro k
  induction k with
  | zero =>
    intro f h0n hinv
    simp only [make_heap_loop]
    have hH : ∀ c, c < n → Desc 0 c → c ≠ 0 → (c - 1) / 2 ≠ 0 →
        cmp (f ((c - 1) / 2)) (f c) = false := by
      intro c hc _ hc0 hp0
      exact hinv c hc (by omega) (by omega)
    obtain ⟨C1, _⟩ := down_heap_main hs f n 0 (f 0) h0n hH
    constructor
    · intro i hi h0i
      exact C1 i hi (desc_zero i) (by omega)
    · exact add_right_cancel (down_heap_mset cmp f n 0 (f 0) h0n)
  | succ k ih =>
    intro f hkn hinv
    simp only [make_heap_loop]
    have hH : ∀ c, c < n → Desc (k + 1) c → c ≠ k + 1 → (c - 1) / 2 ≠ k + 1 →
        cmp (f ((c - 1) / 2)) (f c) = false := by
      intro c hc hd hcne hpne
      have h1 : k + 1 ≤ (c - 1) / 2 := (hd.parent hcne).ge
      have h2 := hd.ge_child hcne
      exact hinv c hc (by omega) (by omega)
    obtain ⟨C1, _⟩ := down_heap_main hs f n (k + 1) (f (k + 1)) hkn hH
    have hfr := down_heap_frame cmp f n (k + 1) (f (k + 1)) hkn
    have hinv1 : ∀ c, c < n → 0 < c → k < (c - 1) / 2 →
        cmp (down_heap cmp f n (k + 1) (f (k + 1)) ((c - 1) / 2))
          (down_heap cmp f n (k + 1) (f (k + 1)) c) = false := by
      intro c hc hc0 hpk
      by_cases hdc : Desc (k + 1) c
      · by_cases hck : c = k + 1
        · exfalso; rw [hck] at hpk; omega
        · exact C1 c hc hdc hck
      · by_cases hpar : (c - 1) / 2 = k + 1
        · exact absurd (desc_of_parent_desc hc0 (hpar ▸ Desc.refl (k + 1))) hdc
        · have hpd : ¬ Desc (k + 1) ((c - 1) / 2) :=
            fun hd => hdc (desc_of_parent_desc hc0 hd)
          rw [hfr c (Or.inl hdc), hfr _ (Or.inl hpd)]
          exact hinv c hc hc0 (by omega)
    obtain ⟨IH1, IH2⟩ := ih (down_heap cmp f n (k + 1) (f (k + 1))) (by omega) hinv1
    refine ⟨IH1, ?_⟩
    rw [IH2]
    exact add_right_cancel (down_heap_mset cmp f n (k + 1) (f (k + 1)) hkn)

/-- The loop of `sort_heap`: given a heap prefix of length `m` dominated by an
already-sorted suffix `[m, N)`, the loop sorts the whole range and preserves
the multiset. -/
theorem sort_heap_loop_spec {cmp : α → α → Bool} (hs : SWO cmp) (N : Nat) :
    ∀ m f, m ≤ N → IsHeap cmp f m →
      (∀ i j, i < m → m ≤ j → j < N → cmp (f j) (f i) = false) →
      (∀ i j, m ≤ i → i ≤ j → j < N → cmp (f j) (f i) = false) →
      (mset (sort_heap_loop cmp m f) N = mset f N
       ∧ ∀ i j, i ≤ j → j < N →
          cmp (sort_heap_loop cmp m f j) (sort_heap_loop cmp m f i) = false) := by
  intro m
  induction m using Nat.strong_induction_on with
  | _ m ihm =>
    match m, ihm with
    | 0, _ =>
      intro f _ _ hcross hsuf
      simp only [sort_heap_loop]
      exact ⟨trivial, fun i j hij hj => hsuf i j (Nat.zero_le i) hij hj⟩
    | 1, _ =>
      intro f _ _ hcross hsuf
      simp only [sort_heap_loop]
      refine ⟨trivial, ?_⟩
      intro i j hij hj
      by_cases h0i : i = 0
      · by_cases h0j : j = 0
        · rw [h0i, h0j]; exact hs.irrefl _
        · rw [h0i]; exact hcross 0 j (by omega) (by omega) hj
      · exact hsuf i j (by omega) hij hj
    | m + 2, ihm =>
      intro f hmN hheap hcross hsuf
      simp only [sort_heap_loop]
      unfold pop_heap_aux
      have hfr := down_heap_frame cmp (upd f (m + 1) (f 0)) (m + 1) 0 (f (m + 1))
        (by omega)
      have hH : ∀ c, c < m + 1 → Desc 0 c → c ≠ 0 → (c - 1) / 2 ≠ 0 →
          cmp (upd f (m + 1) (f 0) ((c - 1) / 2)) (upd f (m + 1) (f 0) c) = false := by
        intro c hc _ hc0 _
        rw [upd_other f _ (by omega : c ≠ m + 1),
          upd_other f _ (by omega : (c - 1) / 2 ≠ m + 1)]
        exact hheap c (by omega) (by omega)
      obtain ⟨C1, _⟩ := down_heap_main hs (upd f (m + 1) (f 0)) (m + 1) 0 (f (m + 1))
        (by omega) hH
      set g1 := down_heap cmp (upd f (m + 1) (f 0)) (m + 1) 0 (f (m + 1)) with hg1
      have hg1heap : IsHeap cmp g1 (m + 1) := fun i hi h0i =>
        C1 i hi (desc_zero i) (by omega)
      have hg1top : g1 (m + 1) = f 0 := by
        rw [hfr (m + 1) (Or.inr (le_refl _))]
        exact upd_same f (m + 1) (f 0)
      have hg1suf : ∀ j, m + 2 ≤ j → g1 j = f j := by
        intro j hj
        rw [hfr j (Or.inr (by omega))]
        exact upd_other f _ (by omega)
      have hmax := root_le hs hheap
      have e1 := down_heap_mset cmp (upd f (m + 1) (f 0)) (m + 1) 0 (f (m + 1))
        (by omega)
      have hf1pre : mset (upd f (m + 1) (f 0)) (m + 1) = mset f (m + 1) :=
        @mset_congr α (upd f (m + 1) (f 0)) f (m + 1)
          fun j hj => upd_other f _ (by omega)
      rw [← hg1, upd_other f _ (by omega : (0 : Nat) ≠ m + 1), hf1pre] at e1
      have e2 : mset g1 (m + 2) = mset f (m + 2) := by
        show mset g1 (m + 1 + 1) = mset f (m + 1 + 1)
        rw [mset_succ g1 (m + 1), mset_succ f (m + 1), hg1top]
        exact e1
      have e3 : mset g1 N = mset f N :=
        mset_eq_upward e2 (fun j hj _ => hg1suf j hj) N (by omega) (le_refl N)
      have hmem : ∀ i, i < m + 1 → ∃ j, j < m + 2 ∧ f j = g1 i := by
        intro i hi
        have h0 : g1 i ∈ mset g1 (m + 1) := mem_mset.mpr ⟨i, hi, rfl⟩
        have h2 : g1 i ∈ mset g1 (m + 1) + {f 0} := Multiset.mem_add.mpr (Or.inl h0)
        rw [e1] at h2
        rcases Multiset.mem_add.mp h2 with h3 | h3
        · rcases mem_mset.mp h3 with ⟨j, hj, he⟩
          exact ⟨j, by omega, he⟩
        · rw [Multiset.mem_singleton] at h3
          exact ⟨m + 1, by omega, h3.symm⟩
      have hcross' : ∀ i j, i < m + 1 → m + 1 ≤ j → j < N → cmp (g1 j) (g1 i) = false := by
        intro i j hi hj hjN
        obtain ⟨i', hi', he⟩ := hmem i hi
        rw [← he]
        by_cases hjm : j = m + 1
        · rw [hjm, hg1top]
          exact hmax i' hi'
        · rw [hg1suf j (by omega)]
          exact hcross i' j hi' (by omega) hjN
      have hsuf' : ∀ i j, m + 1 ≤ i → i ≤ j → j < N → cmp (g1 j) (g1 i) = false := by
        intro i j hi hij hjN
        by_cases him : i = m + 1
        · by_cases hjm : j = m + 1
          · rw [him, hjm]; exact hs.irrefl _
          · rw [him, hg1top, hg1suf j (by omega)]
            exact hcross 0 j (by omega) (by omega) hjN
        · rw [hg1suf i (by omega), hg1suf j (by omega)]
          exact hsuf i j (by omega) hij hjN
      obtain ⟨M, S⟩ := ihm (m + 1) (by omega) g1 (by omega) hg1heap hcross' hsuf'
      exact ⟨M.trans e3, S⟩

/-!  Concrete comparators used to state and witness the claims.  -/

/-- Comparator induced by a priority function, ordering elements so that the
max-heap extreme is the element of minimum priority (the comparator of a
`pop_min` priority queue). -/
def prCmp {β : Type} [LinearOrder β] (pr : α → β) : α → α → Bool :=
  fun a b => decide (pr b < pr a)

theorem prCmp_swo {β : Type} [LinearOrder β] (pr : α → β) : SWO (prCmp pr) := by
  constructor
  · intro a b hab
    rw [prCmp, decide_eq_true_eq] at hab
    rw [prCmp, decide_eq_false_iff_not]
    exact lt_asymm hab
  · intro a b c hac
    rw [prCmp, decide_eq_true_eq] at hac
    rcases lt_or_le (pr b) (pr a) with h | h
    · exact Or.inl (by rw [prCmp, decide_eq_true_eq]; exact h)
    · exact Or.inr (by rw [prCmp, decide_eq_true_eq]; exact lt_of_lt_of_le hac h)

/-- The natural-number `operator<` comparator. -/
def natLt : Nat → Nat → Bool :=
  fun a b => decide (a < b)

theorem natLt_swo : SWO natLt := by
  constructor
  · intro a b hab
    rw [natLt, decide_eq_true_eq] at hab
    rw [natLt, decide_eq_false_iff_not]
    omega
  · intro a b c hac
    rw [natLt, decide_eq_true_eq] at hac
    rcases Nat.lt_or_ge a b with h | h
    · exact Or.inl (by rw [natLt, decide_eq_true_eq]; omega)
    · exact Or.inr (by rw [natLt, decide_eq_true_eq]; omega)

/-!  Correctness of `__up_heap` and of `update_heap` away from the root.  -/

/-- Multiset effect: `__up_heap` replaces one occurrence of the start value
by `p`. -/
theorem up_heap_mset (cmp : α → α → Bool) {n : Nat} :
    ∀ f (pos : Nat) p, pos < n →
      mset (up_heap cmp f pos p) n + {f pos} = mset f n + {p} := by
  intro f pos p
  induction f, pos, p using up_heap.induct cmp with
  | case1 f pos p h ih =>
    intro hn
    rw [up_heap.eq_def, dif_pos h]
    have hpar : (pos - 1) / 2 < pos := by omega
    have hne : (pos - 1) / 2 ≠ pos := by omega
    have e1 := ih (by omega)
    rw [upd_other f _ hne] at e1
    have e2 := mset_upd (f := f) (f ((pos - 1) / 2)) hn
    have e3 : mset (up_heap cmp (upd f pos (f ((pos - 1) / 2))) ((pos - 1) / 2) p) n
          + {f pos} + {f ((pos - 1) / 2)}
        = mset f n + {p} + {f ((pos - 1) / 2)} := by
      rw [add_right_comm, e1, add_right_comm, e2, add_right_comm]
    exact add_right_cancel e3
  | case2 f pos p h =>
    intro hn
    rw [up_heap.eq_def, dif_neg h]
    exact mset_upd p hn

/-- Correctness of `__up_heap`: if every parent/child pair not below the start
position is in heap order, both children of the start position are dominated
by the inserted value `p`, and both are dominated by the start's grandparent,
then the whole range is a heap afterwards. -/
theorem up_heap_heap {cmp : α → α → Bool} (hs : SWO cmp) {n : Nat} :
    ∀ f (pos : Nat) p, pos < n →
      (∀ c, c < n → 0 < c → c ≠ pos → cmp (f ((c - 1) / 2)) (f c) = false) →
      (∀ c, c < n → (c - 1) / 2 = pos → 0 < c → cmp p (f c) = false) →
      (0 < pos → ∀ c, c < n → (c - 1) / 2 = pos → 0 < c →
        cmp (f ((pos - 1) / 2)) (f c) = false) →
      IsHeap cmp (up_heap cmp f pos p) n := by
  intro f pos p
  induction f, pos, p using up_heap.induct cmp with
  | case1 f pos p h ih =>
    intro hn hA hB hB2
    obtain ⟨hpos, hlt⟩ := h
    have hparlt : (pos - 1) / 2 < pos := by omega
    have hparne : (pos - 1) / 2 ≠ pos := by omega
    rw [up_heap.eq_def, dif_pos ⟨hpos, hlt⟩]
    apply ih (by omega)
    · -- pairs away from the new start position
      intro c hc hc0 hcne
      by_cases hcp : c = pos
      · subst hcp
        rw [upd_same, upd_other f _ hparne]
        exact hs.irrefl _
      · by_cases hpcp : (c - 1) / 2 = pos
        · rw [hpcp, upd_same, upd_other f _ hcp]
          exact hB2 hpos c hc hpcp hc0
        · rw [upd_other f _ hcp, upd_other f _ hpcp]
          exact hA c hc hc0 hcp
    · -- children of the new start position are dominated by p
      intro c hc hpc hc0
      by_cases hcp : c = pos
      · subst hcp
        rw [upd_same]
        exact hs.asymm _ _ hlt
      · rw [upd_other f _ hcp]
        have hle := hA c hc hc0 hcp
        rw [hpc] at hle
        exact hs.asymm _ _ (hs.lt_of_le_of_lt hle hlt)
    · -- children of the new start position are dominated by its parent
      intro hpp c hc hpc hc0
      have hgpne : ((pos - 1) / 2 - 1) / 2 ≠ pos := by omega
      rw [upd_other f _ hgpne]
      have hgp := hA ((pos - 1) / 2) (by omega) hpp hparne
      by_cases hcp : c = pos
      · subst hcp
        rw [upd_same]
        exact hgp
      · rw [upd_other f _ hcp]
        have hle := hA c hc hc0 hcp
        rw [hpc] at hle
        exact hs.le_trans hle hgp
  | case2 f pos p h =>
    intro hn hA hB hB2
    rw [up_heap.eq_def, dif_neg h]
    intro i hi h0i
    by_cases hip : i = pos
    · subst hip
      have hpos : 0 < i := h0i
      have hstop : cmp (f ((i - 1) / 2)) p = false := by
        cases hcmp : cmp (f ((i - 1) / 2)) p with
        | false => rfl
        | true => exact absurd ⟨hpos, hcmp⟩ h
      rw [upd_same, upd_other f _ (by omega : (i - 1) / 2 ≠ i)]
      exact hstop
    · by_cases hpip : (i - 1) / 2 = pos
      · rw [hpip, upd_same, upd_other f _ hip]
        exact hB i hi hpip h0i
      · rw [upd_other f _ hip, upd_other f _ hpip]
        exact hA i hi h0i hip

/-- Specification of `update_heap` away from the root: replacing the value at
any position `pos` with `first < pos < last` of a valid max heap by an
arbitrary new value and calling `update_heap` restores the max-heap property
and permutes the (post-replacement) contents.  Together with
`claim_C2_update_heap_root_bug` this isolates the defect to `pos = first`. -/
theorem update_heap_spec {cmp : α → α → Bool} (hs : SWO cmp) (f0 : Nat → α)
    (n pos : Nat) (v : α) (hpos : 0 < pos) (hn : pos < n) (hh : IsHeap cmp f0 n) :
    IsHeap cmp (update_heap cmp (upd f0 pos v) n pos) n
    ∧ mset (update_heap cmp (upd f0 pos v) n pos) n = mset (upd f0 pos v) n := by
  have hparlt : (pos - 1) / 2 < pos := by omega
  have hparne : (pos - 1) / 2 ≠ pos := by omega
  have hfpar : upd f0 pos v ((pos - 1) / 2) = f0 ((pos - 1) / 2) := upd_other f0 v hparne
  have hfpos : upd f0 pos v pos = v := upd_same f0 pos v
  -- children of pos are dominated by the old value, hence by the old parent
  have hchild : ∀ c, c < n → (c - 1) / 2 = pos → 0 < c →
      cmp (f0 pos) (f0 c) = false := by
    intro c hc hpc hc0
    have := hh c hc hc0
    rw [hpc] at this
    exact this
  have hup : cmp (f0 ((pos - 1) / 2)) (f0 pos) = false := by
    have := hh pos hn hpos
    exact this
  unfold update_heap
  by_cases hb1 : 0 < pos ∧ cmp (upd f0 pos v ((pos - 1) / 2)) (upd f0 pos v pos) = true
  · -- bubble up: the new value exceeds the parent
    rw [if_pos hb1]
    obtain ⟨_, hlt⟩ := hb1
    rw [hfpar, hfpos] at hlt
    constructor
    · apply up_heap_heap hs _ _ _ hn
      · intro c hc hc0 hcne
        by_cases hpcp : (c - 1) / 2 = pos
        · rw [hpcp, hfpos, upd_other f0 _ hcne]
          have h1 := hchild c hc hpcp hc0
          have h2 := hs.lt_of_le_of_lt hup hlt
          exact hs.asymm _ _ (hs.lt_of_le_of_lt h1 h2)
        · rw [upd_other f0 _ hcne, upd_other f0 _ hpcp]
          exact hh c hc hc0
      · intro c hc hpc hc0
        rw [hfpos, upd_other f0 _ (by omega : c ≠ pos)]
        have h1 := hchild c hc hpc hc0
        have h2 := hs.lt_of_le_of_lt hup hlt
        exact hs.asymm _ _ (hs.lt_of_le_of_lt h1 h2)
      · intro _ c hc hpc hc0
        rw [hfpar, upd_other f0 _ (by omega : c ≠ pos)]
        exact hs.le_trans (hchild c hc hpc hc0) hup
    · rw [hfpos]
      have := up_heap_mset cmp (upd f0 pos v) pos v hn
      rw [hfpos] at this
      exact add_right_cancel this
  · rw [if_neg hb1]
    have hnotup : cmp (f0 ((pos - 1) / 2)) v = false := by
      cases hcmp : cmp (f0 ((pos - 1) / 2)) v with
      | false => rfl
      | true => exact absurd ⟨hpos, by rw [hfpar, hfpos]; exact hcmp⟩ hb1
    by_cases hb2 : cmp (upd f0 pos v pos) (upd f0 pos v ((pos - 1) / 2)) = true
    · -- bubble down: the new value is below the parent, maybe below a child
      rw [if_pos hb2]
      have hH : ∀ c, c < n → Desc pos c → c ≠ pos → (c - 1) / 2 ≠ pos →
          cmp (upd f0 pos v ((c - 1) / 2)) (upd f0 pos v c) = false := by
        intro c hc hd hcne hpne
        rw [upd_other f0 _ hcne, upd_other f0 _ hpne]
        exact hh c hc (by
          have := hd.ge_child hcne
          omega)
      obtain ⟨C1, D1⟩ := down_heap_main hs (upd f0 pos v) n pos (upd f0 pos v pos) hn hH
      have hfr := down_heap_frame cmp (upd f0 pos v) n pos (upd f0 pos v pos) hn
      constructor
      · intro i hi h0i
        by_cases hdp : Desc pos i
        · by_cases hip : i = pos
          · rw [hip]
            have hgpar : down_heap cmp (upd f0 pos v) n pos (upd f0 pos v pos) ((pos - 1) / 2)
                = f0 ((pos - 1) / 2) := by
              rw [hfr _ (Or.inl fun hd => absurd hd.ge (by omega))]
              exact upd_other f0 v (by omega)
            rw [hgpar]
            apply D1 (f0 ((pos - 1) / 2))
            · rw [hfpos]
              exact hnotup
            · intro c hc hpc hc0
              rw [upd_other f0 _ (by omega : c ≠ pos)]
              exact hs.le_trans (hchild c hc hpc hc0) hup
          · exact C1 i hi hdp hip
        · have hpdp : ¬ Desc pos ((i - 1) / 2) :=
            fun hd => hdp (desc_of_parent_desc h0i hd)
          have hine : i ≠ pos := fun hip => hdp (by rw [hip]; exact Desc.refl pos)
          have hpne : (i - 1) / 2 ≠ pos :=
            fun hip2 => hpdp (by rw [hip2]; exact Desc.refl pos)
          rw [hfr i (Or.inl hdp), hfr _ (Or.inl hpdp),
            upd_other f0 _ hine, upd_other f0 _ hpne]
          exact hh i hi h0i
      · exact add_right_cancel (down_heap_mset cmp (upd f0 pos v) n pos (upd f0 pos v pos) hn)
    · -- no move needed: the new value is equivalent to the parent
      rw [if_neg hb2]
      have hnotdown : cmp v (f0 ((pos - 1) / 2)) = false := by
        cases hcmp : cmp v (f0 ((pos - 1) / 2)) with
        | false => rfl
        | true => exact absurd (by rw [hfpar, hfpos]; exact hcmp) hb2
      refine ⟨?_, rfl⟩
      intro i hi h0i
      by_cases hip : i = pos
      · subst hip
        rw [upd_same, upd_other f0 _ (by omega : (i - 1) / 2 ≠ i)]
        exact hnotup
      · by_cases hpip : (i - 1) / 2 = pos
        · rw [hpip, upd_same, upd_other f0 _ hip]
          have h1 := hchild i hi hpip h0i
          have h2 := hs.le_trans hup hnotdown
          exact hs.le_trans (hs.le_trans h1 hup) hnotdown
        · rw [upd_other f0 _ hip, upd_other f0 _ hpip]
          exact hh i hi h0i

/-- C1: for every non-empty range that is a heap under the priority-queue
comparator (max-heap whose extreme is the minimum-priority element),
`mas::heap::pop_heap` moves one extreme element of the range — the old root,
which has minimum priority among all stored elements — to position `last-1`,
restores the heap on `[first, last-1)`, and permutes the contents: the
`pop_min() -> payload` contract of the indexed priority queue used by
nearest-boundable search. -/
theorem claim_C1 {β : Type} [LinearOrder β] (pr : α → β) (f : Nat → α) (n : Nat)
    (hn : 1 ≤ n) (hh : IsHeap (prCmp pr) f n) :
    pop_heap (prCmp pr) f n (n - 1) = f 0
    ∧ (∀ i, i < n → pr (pop_heap (prCmp pr) f n (n - 1)) ≤ pr (f i))
    ∧ IsHeap (prCmp pr) (pop_heap (prCmp pr) f n) (n - 1)
    ∧ mset (pop_heap (prCmp pr) f n) n = mset f n := by
  obtain ⟨hpop, hheap, hm⟩ := pop_heap_spec (prCmp_swo pr) f n hn hh
  refine ⟨hpop, ?_, hheap, hm⟩
  intro i hi
  rw [hpop]
  have hroot := root_le (prCmp_swo pr) hh i hi
  rw [prCmp, decide_eq_false_iff_not] at hroot
  exact not_lt.mp hroot

def exf0 : Nat → Nat := fun i => [3, 2, 1].getD i 0

def exf1 : Nat → Nat := fun i => [1, 2, 3].getD i 0

theorem claim_C1_witness :
    ((1 ≤ 3 ∧ IsHeap (prCmp (id : Nat → Nat)) exf1 3) ∧
      (pop_heap (prCmp (id : Nat → Nat)) exf1 3 (3 - 1) = exf1 0
       ∧ (∀ i, i < 3 →
            id (pop_heap (prCmp (id : Nat → Nat)) exf1 3 (3 - 1)) ≤ id (exf1 i))
       ∧ IsHeap (prCmp (id : Nat → Nat)) (pop_heap (prCmp (id : Nat → Nat)) exf1 3) (3 - 1)
       ∧ mset (pop_heap (prCmp (id : Nat → Nat)) exf1 3) 3 = mset exf1 3)) :=
  ⟨⟨by decide, by decide⟩, claim_C1 id exf1 3 (by decide) (by decide)⟩

/-- C2: the heap `[3, 2, 1]` whose root value is replaced by `0` (an arbitrary
new value at `pos = first`) is a counterexample to the claim that
`mas::heap::update_heap` restores the max-heap property at the root: with
`posd = 0` the parent index `(posd - 1) / 2` evaluates to `0`, both branch
tests compare the root with itself, and the call returns without bubbling
down, leaving `[0, 2, 1]`, which is not a heap. -/
theorem claim_C2_update_heap_root_bug :
    IsHeap natLt exf0 3
    ∧ update_heap natLt (upd exf0 0 0) 3 0 = upd exf0 0 0
    ∧ ¬ IsHeap natLt (update_heap natLt (upd exf0 0 0) 3 0) 3 :=
  ⟨by decide, rfl, by decide⟩

/-- C3: `mas::heap::make_heap` rearranges any range into a permutation of its
input on which the source `mas::heap::is_heap` returns `true` (no element at
index `i` compares less than its children at `2i+1` and `2i+2`), for every
strict-weak-order comparator, including empty and one-element ranges. -/
theorem claim_C3 (cmp : α → α → Bool) (hs : SWO cmp) (f : Nat → α) (n : Nat) :
    mset (make_heap cmp f n) n = mset f n
    ∧ is_heap cmp (make_heap cmp f n) n = true := by
  unfold make_heap
  by_cases hn : n = 0
  · rw [if_pos hn]
    subst hn
    refine ⟨rfl, ?_⟩
    unfold is_heap is_heap_until
    rw [ihul_stop (by omega)]
    rfl
  · rw [if_neg hn]
    have hstart : (n - 2) / 2 < n := by omega
    have hinv0 : ∀ c, c < n → 0 < c → (n - 2) / 2 < (c - 1) / 2 →
        cmp (f ((c - 1) / 2)) (f c) = false := by
      intro c hc hc0 hgt
      exfalso
      omega
    obtain ⟨H, M⟩ := make_heap_loop_spec hs n ((n - 2) / 2) f hstart hinv0
    exact ⟨M, (is_heap_iff cmp _ n).mpr H⟩

def exf2 : Nat → Nat := fun i => [1, 3, 2].getD i 0

theorem claim_C3_witness :
    (SWO natLt) ∧
      (mset (make_heap natLt exf2 3) 3 = mset exf2 3
       ∧ is_heap natLt (make_heap natLt exf2 3) 3 = true) :=
  ⟨natLt_swo, claim_C3 natLt natLt_swo exf2 3⟩

/-- C4: on a range that is a valid max binary heap under a strict-weak-order
comparator, `mas::heap::sort_heap` produces a permutation of its input sorted
in ascending order with respect to the comparator (no later element compares
less than an earlier one). -/
theorem claim_C4 (cmp : α → α → Bool) (hs : SWO cmp) (f : Nat → α) (n : Nat)
    (hh : IsHeap cmp f n) :
    mset (sort_heap cmp f n) n = mset f n
    ∧ ∀ i j, i ≤ j → j < n →
        cmp (sort_heap cmp f n j) (sort_heap cmp f n i) = false := by
  unfold sort_heap
  exact sort_heap_loop_spec hs n n f (le_refl n) hh
    (fun i j hi hj hjN => (by omega : False).elim)
    (fun i j hi hij hjN => (by omega : False).elim)

def exf3 : Nat → Nat := fun i => [3, 1, 2].getD i 0

theorem claim_C4_witness :
    (SWO natLt ∧ IsHeap natLt exf3 3) ∧
      (mset (sort_heap natLt exf3 3) 3 = mset exf3 3
       ∧ ∀ i j, i ≤ j → j < 3 →
          natLt (sort_heap natLt exf3 3 j) (sort_heap natLt exf3 3 i) = false) :=
  ⟨⟨natLt_swo, by decide⟩, claim_C4 natLt natLt_swo exf3 3 (by decide)⟩

end heap

namespace bvtree

/-!
Model of the bounding-volume-tree layer.  The header in `src` declares the
`mas::bvtree` classes (`BVNode`, `BVTree`, bounding volumes, `grow`, `build`,
`update`, `getLeaves`, ...) but the implementation file `mas/bvtree/bvtree.hpp`
it includes is not part of `src`, so the definitions below are modelled from
the specification text (sections 3, 4.2-4.4, 4.7 and 8 of the spec) rather
than transcribed from source code.  Boundables are modelled as point elements
identified by a natural-number index whose current position is given by a map
`pos : Nat → Pt`; bounding volumes are axis-aligned boxes over `ℚ` (the AABB
variant), each carrying the tree margin.
-/

/-- A point of the external math library, modelled as a triple of rationals
indexed by axis. -/
abbrev Pt : Type := Fin 3 → ℚ

/-- Modelled from the spec: an axis-aligned bounding box (§3): centre,
per-axis half-widths and a margin that inflates the effective containment
region without being stored in the reported half-widths. -/
structure Box where
  c : Pt
  hw : Pt
  margin : ℚ

/-- The effective (margin-inflated) region of a box contains a point. -/
def containsPoint (b : Box) (p : Pt) : Prop :=
  ∀ i, |p i - b.c i| ≤ b.hw i + b.margin

/-- The effective (margin-inflated) region of `outer` contains the effective
region of `inner`. -/
def containsBox (outer inner : Box) : Prop :=
  ∀ i, outer.c i - outer.hw i - outer.margin ≤ inner.c i - inner.hw i - inner.margin
    ∧ inner.c i + inner.hw i + inner.margin ≤ outer.c i + outer.hw i + outer.margin

def qmin (x : ℚ) (l : List ℚ) : ℚ := l.foldl min x

def qmax (x : ℚ) (l : List ℚ) : ℚ := l.foldl max x

/-- Modelled from the spec: `bound` over a point set for the AABB variant
(§4.1, "AABB/Sphere use simpler centroid+extent passes"): the box spanning the
per-axis minima and maxima. -/
def boundPts (m : ℚ) : List Pt → Box
  | [] => ⟨fun _ => 0, fun _ => 0, m⟩
  | p :: ps =>
    ⟨fun i => (qmin (p i) (ps.map fun q => q i) + qmax (p i) (ps.map fun q => q i)) / 2,
     fun i => (qmax (p i) (ps.map fun q => q i) - qmin (p i) (ps.map fun q => q i)) / 2,
     m⟩

/-- Modelled from the spec: `bound` over child volumes treated as boundables
(§4.2 `updateBounds`): the box spanning the children's reported extents. -/
def boundBoxes (m : ℚ) : List Box → Box
  | [] => ⟨fun _ => 0, fun _ => 0, m⟩
  | b :: bs =>
    ⟨fun i => (qmin (b.c i - b.hw i) (bs.map fun v => v.c i - v.hw i)
               + qmax (b.c i + b.hw i) (bs.map fun v => v.c i + v.hw i)) / 2,
     fun i => (qmax (b.c i + b.hw i) (bs.map fun v => v.c i + v.hw i)
               - qmin (b.c i - b.hw i) (bs.map fun v => v.c i - v.hw i)) / 2,
     m⟩

/-- Modelled from the spec: a tree node (§3) owns a bounding volume and either
an element list (leaf) or its two children (the tree is binary: `split`
produces exactly two groups). -/
inductive BVNode where
  | leaf (bv : Box) (elems : List Nat)
  | node (bv : Box) (left right : BVNode)

def BVNode.bv : BVNode → Box
  | .leaf b _ => b
  | .node b _ _ => b

/-- Model of `BVNode::isLeaf`: a node is a leaf iff its child list is empty. -/
def BVNode.isLeaf : BVNode → Bool
  | .leaf _ _ => true
  | .node _ _ _ => false

/-- The node's own element list (non-empty only on leaves; cleared when a
node becomes internal). -/
def BVNode.elems : BVNode → List Nat
  | .leaf _ es => es
  | .node _ _ _ => []

/-- All elements stored in the leaves below a node. -/
def elemsUnder : BVNode → List Nat
  | .leaf _ es => es
  | .node _ l r => elemsUnder l ++ elemsUnder r

/-- The axis of largest half-width, preferring x, then y, then z on ties
(§4.1: split "along the longest half-width axis"). -/
def longestAxis (hw : Pt) : Fin 3 :=
  if hw 1 ≤ hw 0 ∧ hw 2 ≤ hw 0 then 0 else if hw 2 ≤ hw 1 then 1 else 2

/-- Modelled from the spec: `split` (§4.1) partitions the elements into the
two groups on either side of the bounding volume's centre along its longest
axis, and fails (returns `none`) when one group would be empty (§9: a split
that produces one empty and one full group is treated as "do not split"). -/
def splitElems (pos : Nat → Pt) (m : ℚ) (es : List Nat) : Option (List Nat × List Nat) :=
  if (es.filter fun e => decide (pos e (longestAxis (boundPts m (es.map pos)).hw)
        < (boundPts m (es.map pos)).c (longestAxis (boundPts m (es.map pos)).hw))) = []
    ∨ (es.filter fun e => ! decide (pos e (longestAxis (boundPts m (es.map pos)).hw)
        < (boundPts m (es.map pos)).c (longestAxis (boundPts m (es.map pos)).hw))) = [] then
    none
  else
    some
      (es.filter fun e => decide (pos e (longestAxis (boundPts m (es.map pos)).hw)
        < (boundPts m (es.map pos)).c (longestAxis (boundPts m (es.map pos)).hw)),
       es.filter fun e => ! decide (pos e (longestAxis (boundPts m (es.map pos)).hw)
        < (boundPts m (es.map pos)).c (longestAxis (boundPts m (es.map pos)).hw)))

theorem splitElems_some {pos : Nat → Pt} {m : ℚ} {es l r : List Nat}
    (h : splitElems pos m es = some (l, r)) :
    List.Perm (l ++ r) es ∧ l ≠ [] ∧ r ≠ [] := by
  unfold splitElems at h
  split at h
  · exact absurd h (by simp)
  · next hne =>
    rw [Option.some_inj, Prod.mk.injEq] at h
    obtain ⟨hl, hr⟩ := h
    rw [not_or] at hne
    refine ⟨?_, ?_, ?_⟩
    · rw [← hl, ← hr]
      exact List.filter_append_perm _ es
    · rw [← hl]; exact hne.1
    · rw [← hr]; exact hne.2

theorem splitElems_length {pos : Nat → Pt} {m : ℚ} {es l r : List Nat}
    (h : splitElems pos m es = some (l, r)) :
    l.length < es.length ∧ r.length < es.length := by
  obtain ⟨hperm, hl, hr⟩ := splitElems_some h
  have hlen : l.length + r.length = es.length := by
    have := hperm.length_eq
    rw [List.length_append] at this
    exact this
  have hl0 : 0 < l.length := List.length_pos.mpr hl
  have hr0 : 0 < r.length := List.length_pos.mpr hr
  omega

/-- Modelled from the spec: the sequential construction (§4.2-4.3):
`recursive_build` grows the node depth-first — a node with at most one
element, or whose `split` fails, stays a leaf; otherwise it becomes internal
with the two groups as children — and computes every node's bounding volume
bottom-up as `updateBounds` would (`bound` over the elements on leaves, over
the children's volumes on internal nodes). -/
def recursive_build (pos : Nat → Pt) (m : ℚ) (es : List Nat) : BVNode :=
  if es.length ≤ 1 then
    .leaf (boundPts m (es.map pos)) es
  else
    match h2 : splitElems pos m es with
    | none => .leaf (boundPts m (es.map pos)) es
    | some (l, r) =>
      .node (boundBoxes m [(recursive_build pos m l).bv, (recursive_build pos m r).bv])
        (recursive_build pos m l) (recursive_build pos m r)
termination_by es.length
decreasing_by
  all_goals first
    | exact (splitElems_length h2).1
    | exact (splitElems_length h2).2

/-- Model of `BVTree::build` (§4.3): reset and construct the hierarchy from all input
elements with the given margin. -/
def build (pos : Nat → Pt) (es : List Nat) (m : ℚ) : BVNode :=
  recursive_build pos m es

/-- Modelled from the spec: `BVTree::parallel_build` (§4.4) produces the same
logical result as the sequential build (scheduling is not modelled; index
assignment is specified only up to the guarantees stated in C7). -/
def parallel_build (pos : Nat → Pt) (es : List Nat) (m : ℚ) : BVNode :=
  build pos es m

/-- Modelled from the spec: `BVNode::grow` (§4.2): one level of splitting on
the node's current elements; no-op returning `false` when the node holds at
most one element or `split` cannot produce two non-empty groups, otherwise
the node becomes internal with two children and its element list is cleared. -/
def grow (pos : Nat → Pt) (m : ℚ) : BVNode → Bool × BVNode
  | .node bv l r => (false, .node bv l r)
  | .leaf bv es =>
    if es.length ≤ 1 then (false, .leaf bv es)
    else
      match splitElems pos m es with
      | none => (false, .leaf bv es)
      | some (l, r) =>
        (true, .node bv (.leaf (boundPts m (l.map pos)) l)
          (.leaf (boundPts m (r.map pos)) r))

/-- Modelled from the spec: `BVNode::updateBounds` / `BVTree::update` (§4.7):
recompute every bounding volume bottom-up from the current element geometry
without altering the topology. -/
def updateBounds (pos : Nat → Pt) (m : ℚ) : BVNode → BVNode
  | .leaf _ es => .leaf (boundPts m (es.map pos)) es
  | .node _ l r =>
    .node (boundBoxes m [(updateBounds pos m l).bv, (updateBounds pos m r).bv])
      (updateBounds pos m l) (updateBounds pos m r)

/-- Model of `BVTree::update`. -/
def update (pos : Nat → Pt) (m : ℚ) (t : BVNode) : BVNode :=
  updateBounds pos m t

/-- Modelled from the spec: `BVTree::parallel_update` (§4.7) computes the same
bottom-up refit as `update`; subtrees are refit independently and merged, so
the result coincides with the sequential refit. -/
def parallel_update (pos : Nat → Pt) (m : ℚ) (t : BVNode) : BVNode :=
  update pos m t

/-- Model of `BVTree::getLeaves`: the leaves of the tree, in depth-first order. -/
def getLeaves : BVNode → List BVNode
  | .leaf bv es => [.leaf bv es]
  | .node _ l r => getLeaves l ++ getLeaves r

/-- The internal nodes of the tree, in depth-first order. -/
def internalNodes : BVNode → List BVNode
  | .leaf _ _ => []
  | .node bv l r => .node bv l r :: (internalNodes l ++ internalNodes r)

/-- Modelled from the spec: the dense node array (§3 invariant (e)): node
indices are assigned densely with all leaf indices occupying a contiguous
trailing range starting at the recorded offset `leavesIdx`. -/
def nodesList (t : BVNode) : List BVNode :=
  internalNodes t ++ getLeaves t

def numNodes (t : BVNode) : Nat := (nodesList t).length

def numLeaves (t : BVNode) : Nat := (getLeaves t).length

def leavesIdx (t : BVNode) : Nat := (internalNodes t).length

/-- Model of `BVTree::getNode`: the node at a given index of the dense node array. -/
def getNode (t : BVNode) (i : Nat) : BVNode :=
  (nodesList t).getD i (.leaf (boundPts 0 []) [])

/-- Model of `BVTree::getLeaf`: the i-th leaf. -/
def getLeaf (t : BVNode) (i : Nat) : BVNode :=
  (getLeaves t).getD i (.leaf (boundPts 0 []) [])

/-- The topology of a tree: parent/child structure and the assignment of
elements to leaves, with the bounding volumes erased. -/
inductive Topo where
  | leaf (elems : List Nat)
  | node (left right : Topo)

def topoOf : BVNode → Topo
  | .leaf _ es => .leaf es
  | .node _ l r => .node (topoOf l) (topoOf r)

/-- Relation `Subtree s t`: `s` is a node of the tree `t` (the subtree rooted there). -/
inductive Subtree : BVNode → BVNode → Prop
  | refl (t : BVNode) : Subtree t t
  | left {s : BVNode} (bv : Box) {l r : BVNode} : Subtree s l → Subtree s (.node bv l r)
  | right {s : BVNode} (bv : Box) {l r : BVNode} : Subtree s r → Subtree s (.node bv l r)

/-- The containment invariant (§8, §3 invariant (c)): every node's volume
contains (under margin) its own elements and its children's volumes. -/
def Inv (pos : Nat → Pt) : BVNode → Prop
  | .leaf bv es => ∀ e ∈ es, containsPoint bv (pos e)
  | .node bv l r => containsBox bv l.bv ∧ containsBox bv r.bv ∧ Inv pos l ∧ Inv pos r

/-!  Elementary facts about the bounds computations.  -/

theorem qmin_le_start (x : ℚ) (l : List ℚ) : qmin x l ≤ x := by
  induction l generalizing x with
  | nil => exact le_refl x
  | cons a t ih =>
    show qmin (min x a) t ≤ x
    exact le_trans (ih (min x a)) (min_le_left x a)

theorem qmin_le_mem (x : ℚ) {l : List ℚ} {y : ℚ} (h : y ∈ l) : qmin x l ≤ y := by
  induction l generalizing x with
  | nil => cases h
  | cons a t ih =>
    rcases List.mem_cons.mp h with h1 | h1
    · subst h1
      exact le_trans (qmin_le_start (min x y) t) (min_le_right x y)
    · exact ih (min x a) h1

theorem le_qmax_start (x : ℚ) (l : List ℚ) : x ≤ qmax x l := by
  induction l generalizing x with
  | nil => exact le_refl x
  | cons a t ih =>
    show x ≤ qmax (max x a) t
    exact le_trans (le_max_left x a) (ih (max x a))

theorem le_qmax_mem (x : ℚ) {l : List ℚ} {y : ℚ} (h : y ∈ l) : y ≤ qmax x l := by
  induction l generalizing x with
  | nil => cases h
  | cons a t ih =>
    rcases List.mem_cons.mp h with h1 | h1
    · subst h1
      exact le_trans (le_max_right x y) (le_qmax_start (max x y) t)
    · exact ih (max x a) h1

@[simp] theorem boundPts_margin (m : ℚ) (ps : List Pt) : (boundPts m ps).margin = m := by
  cases ps <;> rfl

@[simp] theorem boundBoxes_margin (m : ℚ) (bs : List Box) : (boundBoxes m bs).margin = m := by
  cases bs <;> rfl

/-- Correctness of `bound` over points: every bounded point lies in the effective
region. -/
theorem boundPts_contains {m : ℚ} (hm : 0 ≤ m) (ps : List Pt) :
    ∀ q ∈ ps, containsPoint (boundPts m ps) q := by
  cases ps with
  | nil => intro q hq; cases hq
  | cons p t =>
    intro q hq i
    have hlo : qmin (p i) (t.map fun r => r i) ≤ q i := by
      rcases List.mem_cons.mp hq with h | h
      · subst h; exact qmin_le_start _ _
      · exact qmin_le_mem _ (List.mem_map_of_mem (fun r => r i) h)
    have hhi : q i ≤ qmax (p i) (t.map fun r => r i) := by
      rcases List.mem_cons.mp hq with h | h
      · subst h; exact le_qmax_start _ _
      · exact le_qmax_mem _ (List.mem_map_of_mem (fun r => r i) h)
    simp only [boundPts]
    rw [abs_le]
    constructor <;> linarith

/-- Correctness of `bound` over child volumes: every listed volume (all carrying
the same margin) is nested in the effective region of the result. -/
theorem boundBoxes_contains {m : ℚ} (bs : List Box)
    (hmar : ∀ v ∈ bs, v.margin = m) :
    ∀ v ∈ bs, containsBox (boundBoxes m bs) v := by
  cases bs with
  | nil => intro v hv; cases hv
  | cons b t =>
    intro v hv i
    have hlo : qmin (b.c i - b.hw i) (t.map fun w => w.c i - w.hw i) ≤ v.c i - v.hw i := by
      rcases List.mem_cons.mp hv with h | h
      · subst h; exact qmin_le_start _ _
      · exact qmin_le_mem _ (List.mem_map_of_mem (fun w => w.c i - w.hw i) h)
    have hhi : v.c i + v.hw i ≤ qmax (b.c i + b.hw i) (t.map fun w => w.c i + w.hw i) := by
      rcases List.mem_cons.mp hv with h | h
      · subst h; exact le_qmax_start _ _
      · exact le_qmax_mem _ (List.mem_map_of_mem (fun w => w.c i + w.hw i) h)
    have hvm : v.margin = m := hmar v hv
    simp only [boundBoxes]
    rw [hvm]
    constructor <;> linarith

/-- Nested effective regions transfer point containment. -/
theorem containsBox_point {o b : Box} {p : Pt} (h1 : containsBox o b)
    (h2 : containsPoint b p) : containsPoint o p := by
  intro i
  obtain ⟨ha, hb⟩ := h1 i
  have hc := h2 i
  rw [abs_le] at hc ⊢
  obtain ⟨hc1, hc2⟩ := hc
  constructor <;> linarith

/-!  Unfolding equations of `recursive_build`.  -/

theorem rb_eq_small (pos : Nat → Pt) (m : ℚ) {es : List Nat} (h : es.length ≤ 1) :
    recursive_build pos m es = .leaf (boundPts m (es.map pos)) es := by
  rw [recursive_build.eq_def, if_pos h]

theorem rb_eq_nosplit (pos : Nat → Pt) (m : ℚ) {es : List Nat}
    (h1 : ¬ es.length ≤ 1) (h2 : splitElems pos m es = none) :
    recursive_build pos m es = .leaf (boundPts m (es.map pos)) es := by
  rw [recursive_build.eq_def, if_neg h1]
  split
  · rfl
  · next l r heq =>
    rw [h2] at heq
    cases heq

theorem rb_eq_split (pos : Nat → Pt) (m : ℚ) {es l r : List Nat}
    (h1 : ¬ es.length ≤ 1) (h2 : splitElems pos m es = some (l, r)) :
    recursive_build pos m es =
      .node (boundBoxes m [(recursive_build pos m l).bv, (recursive_build pos m r).bv])
        (recursive_build pos m l) (recursive_build pos m r) := by
  rw [recursive_build.eq_def, if_neg h1]
  split
  · next heq =>
    rw [h2] at heq
    cases heq
  · next l2 r2 heq =>
    rw [h2] at heq
    rw [Option.some_inj, Prod.mk.injEq] at heq
    rw [← heq.1, ← heq.2]

@[simp] theorem updateBounds_margin (pos : Nat → Pt) (m : ℚ) (t : BVNode) :
    (updateBounds pos m t).bv.margin = m := by
  cases t <;> simp [updateBounds, BVNode.bv]

theorem recursive_build_margin (pos : Nat → Pt) (m : ℚ) (es : List Nat) :
    (recursive_build pos m es).bv.margin = m := by
  by_cases h1 : es.length ≤ 1
  · rw [rb_eq_small pos m h1]; simp [BVNode.bv]
  · cases h2 : splitElems pos m es with
    | none => rw [rb_eq_nosplit pos m h1 h2]; simp [BVNode.bv]
    | some lr =>
      obtain ⟨l, r⟩ := lr
      rw [rb_eq_split pos m h1 h2]; simp [BVNode.bv]

/-!  The containment invariant after refit and after build.  -/

theorem inv_updateBounds (pos : Nat → Pt) (m : ℚ) (hm : 0 ≤ m) :
    ∀ t, Inv pos (updateBounds pos m t) := by
  intro t
  induction t with
  | leaf bv es =>
    simp only [updateBounds, Inv]
    intro e he
    exact boundPts_contains hm _ _ (List.mem_map_of_mem pos he)
  | node bv l r ihl ihr =>
    simp only [updateBounds, Inv]
    have hmar : ∀ v ∈ [(updateBounds pos m l).bv, (updateBounds pos m r).bv],
        v.margin = m := by
      intro v hv
      rcases List.mem_cons.mp hv with h | h
      · rw [h]; exact updateBounds_margin pos m l
      · rw [List.mem_singleton.mp h]; exact updateBounds_margin pos m r
    have hb := boundBoxes_contains _ hmar
    exact ⟨hb _ (by simp), hb _ (by simp), ihl, ihr⟩

theorem inv_recursive_build (pos : Nat → Pt) (m : ℚ) (hm : 0 ≤ m) :
    ∀ es, Inv pos (recursive_build pos m es) := by
  intro es
  induction es using recursive_build.induct pos m with
  | case1 es h =>
    rw [rb_eq_small pos m h]
    simp only [Inv]
    intro e he
    exact boundPts_contains hm _ _ (List.mem_map_of_mem pos he)
  | case2 es h1 h2 =>
    rw [rb_eq_nosplit pos m h1 h2]
    simp only [Inv]
    intro e he
    exact boundPts_contains hm _ _ (List.mem_map_of_mem pos he)
  | case3 es h1 l r h2 ihl ihr =>
    rw [rb_eq_split pos m h1 h2]
    simp only [Inv]
    have hmar : ∀ v ∈ [(recursive_build pos m l).bv, (recursive_build pos m r).bv],
        v.margin = m := by
      intro v hv
      rcases List.mem_cons.mp hv with h | h
      · rw [h]; exact recursive_build_margin pos m l
      · rw [List.mem_singleton.mp h]; exact recursive_build_margin pos m r
    have hb := boundBoxes_contains _ hmar
    exact ⟨hb _ (by simp), hb _ (by simp), ihl, ihr⟩

theorem Inv_subtree {pos : Nat → Pt} {s t : BVNode} (h : Subtree s t)
    (hi : Inv pos t) : Inv pos s := by
  induction h with
  | refl => exact hi
  | left bv h ih => exact ih hi.2.2.1
  | right bv h ih => exact ih hi.2.2.2

/-- From the invariant, recursively: every node's effective volume contains
all descendant elements. -/
theorem inv_contains {pos : Nat → Pt} :
    ∀ t, Inv pos t → ∀ e ∈ elemsUnder t, containsPoint t.bv (pos e) := by
  intro t
  induction t with
  | leaf bv es =>
    intro hi e he
    exact hi e he
  | node bv l r ihl ihr =>
    intro hi e he
    simp only [elemsUnder, List.mem_append] at he
    rcases he with he | he
    · exact containsBox_point hi.1 (ihl hi.2.2.1 e he)
    · exact containsBox_point hi.2.1 (ihr hi.2.2.2 e he)

/-- C5: for every input element collection and non-negative margin, after
`build` or `parallel_build`, and for every tree after `update` or
`parallel_update`, every node's bounding volume under its margin contains all
of the node's own elements and the bounding volumes of its children, and
hence, recursively, all descendant elements. -/
theorem claim_C5 (pos pos2 : Nat → Pt) (m : ℚ) (es : List Nat) (t : BVNode)
    (hm : 0 ≤ m) :
    Inv pos (build pos es m)
    ∧ Inv pos (parallel_build pos es m)
    ∧ Inv pos2 (update pos2 m t)
    ∧ Inv pos2 (parallel_update pos2 m t)
    ∧ (∀ s, Subtree s (build pos es m) → ∀ e ∈ elemsUnder s, containsPoint s.bv (pos e))
    ∧ (∀ s, Subtree s (update pos2 m t) →
        ∀ e ∈ elemsUnder s, containsPoint s.bv (pos2 e)) := by
  have hb := inv_recursive_build pos m hm es
  have hu := inv_updateBounds pos2 m hm t
  refine ⟨hb, hb, hu, hu, ?_, ?_⟩
  · intro s hs e he
    exact inv_contains s (Inv_subtree hs hb) e he
  · intro s hs e he
    exact inv_contains s (Inv_subtree hs hu) e he

def pos0 : Nat → Pt := fun _ _ => 0

def tEx : BVNode := .leaf (boundPts 1 [pos0 0]) [0]

theorem claim_C5_witness :
    (0 : ℚ) ≤ 1 ∧ Inv pos0 (build pos0 [0, 1] 1) :=
  ⟨zero_le_one, (claim_C5 pos0 pos0 1 [0, 1] tEx zero_le_one).1⟩

/-!  Leaves partition the elements.  -/

theorem elems_join : ∀ t : BVNode, ((getLeaves t).map BVNode.elems).join = elemsUnder t := by
  intro t
  induction t with
  | leaf bv es => simp [getLeaves, elemsUnder, BVNode.elems]
  | node bv l r ihl ihr =>
    simp [getLeaves, elemsUnder, List.map_append, ihl, ihr]

theorem build_perm (pos : Nat → Pt) (m : ℚ) :
    ∀ es, List.Perm (elemsUnder (recursive_build pos m es)) es := by
  intro es
  induction es using recursive_build.induct pos m with
  | case1 es h =>
    rw [rb_eq_small pos m h]
    exact List.Perm.refl es
  | case2 es h1 h2 =>
    rw [rb_eq_nosplit pos m h1 h2]
    exact List.Perm.refl es
  | case3 es h1 l r h2 ihl ihr =>
    rw [rb_eq_split pos m h1 h2]
    simp only [elemsUnder]
    exact (ihl.append ihr).trans (splitElems_some h2).1

/-- C6: building from an element collection and collecting the leaves with
`getLeaves` yields element lists whose concatenation is a permutation of the
input — every input element lands in exactly one leaf exactly once, with no
duplication and no loss. -/
theorem claim_C6 (pos : Nat → Pt) (m : ℚ) (es : List Nat) :
    List.Perm (((getLeaves (build pos es m)).map BVNode.elems).join) es := by
  rw [elems_join]
  exact build_perm pos m es

/-!  Index layout of the dense node array.  -/

theorem mem_internalNodes : ∀ t x, x ∈ internalNodes t → BVNode.isLeaf x = false := by
  intro t
  induction t with
  | leaf bv es => intro x hx; cases hx
  | node bv l r ihl ihr =>
    intro x hx
    rcases List.mem_cons.mp hx with h | h
    · rw [h]; rfl
    · rcases List.mem_append.mp h with h | h
      · exact ihl x h
      · exact ihr x h

theorem mem_getLeaves : ∀ t x, x ∈ getLeaves t → BVNode.isLeaf x = true := by
  intro t
  induction t with
  | leaf bv es =>
    intro x hx
    rw [List.mem_singleton.mp hx]
    rfl
  | node bv l r ihl ihr =>
    intro x hx
    rcases List.mem_append.mp hx with h | h
    · exact ihl x h
    · exact ihr x h

theorem getD_append_right {γ : Type} (A B : List γ) (d : γ) (i : Nat) :
    (A ++ B).getD (A.length + i) d = B.getD i d := by
  induction A with
  | nil => simp
  | cons a A ih =>
    have hlen : (a :: A).length + i = (A.length + i) + 1 := by
      simp [Nat.succ_add]
    rw [List.cons_append, hlen]
    simpa using ih

/-- C7: after `build` (and `parallel_build`, which produces the same tree in
this model), the dense node array gives every node a unique index in
`[0, numNodes)`, the leaf indices are exactly the contiguous trailing range
`[leavesIdx, leavesIdx + numLeaves)`, and `getLeaf i` is the node at index
`leavesIdx + i`. -/
theorem claim_C7 (pos : Nat → Pt) (m : ℚ) (es : List Nat) :
    numNodes (build pos es m) = leavesIdx (build pos es m) + numLeaves (build pos es m)
    ∧ (∀ j, j < numNodes (build pos es m) →
        (BVNode.isLeaf (getNode (build pos es m) j) = true ↔ leavesIdx (build pos es m) ≤ j))
    ∧ (∀ i, i < numLeaves (build pos es m) →
        getNode (build pos es m) (leavesIdx (build pos es m) + i) = getLeaf (build pos es m) i)
    ∧ parallel_build pos es m = build pos es m := by
  refine ⟨?_, ?_, ?_, rfl⟩
  · unfold numNodes nodesList leavesIdx numLeaves
    exact List.length_append _ _
  · intro j hj
    unfold numNodes nodesList at hj
    rw [List.length_append] at hj
    unfold getNode nodesList leavesIdx
    constructor
    · intro hleaf
      by_contra hlt
      rw [not_le] at hlt
      rw [List.getD_append _ _ _ _ hlt, List.getD_eq_getElem _ _ hlt] at hleaf
      rw [mem_internalNodes _ _ (List.getElem_mem hlt)] at hleaf
      cases hleaf
    · intro hge
      have hsum : (internalNodes (build pos es m)).length
          + (j - (internalNodes (build pos es m)).length) = j := by omega
      rw [← hsum, getD_append_right]
      have hlt2 : j - (internalNodes (build pos es m)).length
          < (getLeaves (build pos es m)).length := by omega
      rw [List.getD_eq_getElem _ _ hlt2]
      exact mem_getLeaves _ _ (List.getElem_mem hlt2)
  · intro i hi
    unfold getNode getLeaf nodesList leavesIdx
    exact getD_append_right _ _ _ i

/-- C8: building from the empty collection yields a tree consisting of a
single node: a root that is a leaf holding zero elements. -/
theorem claim_C8 (pos : Nat → Pt) (m : ℚ) :
    build pos [] m = BVNode.leaf (boundPts m []) []
    ∧ numNodes (build pos [] m) = 1
    ∧ BVNode.isLeaf (build pos [] m) = true
    ∧ BVNode.elems (build pos [] m) = [] := by
  have h : build pos [] m = BVNode.leaf (boundPts m []) [] := by
    unfold build
    rw [rb_eq_small pos m (by simp)]
    simp
  rw [h]
  exact ⟨rfl, rfl, rfl, rfl⟩

/-- C9: `BVNode::grow` on a leaf returns `false` and is a no-op — the node
keeps its element list, stays a leaf and gains no children — exactly when the
node holds at most one element or `split` cannot partition the elements into
two non-empty groups; in all other cases it returns `true` and the node
becomes internal with two leaf children splitting its elements, its own
element list cleared. -/
theorem claim_C9 (pos : Nat → Pt) (m : ℚ) (bv : Box) (es : List Nat) :
    ((grow pos m (.leaf bv es)).1 = false ↔
      (es.length ≤ 1 ∨ splitElems pos m es = none))
    ∧ ((grow pos m (.leaf bv es)).1 = false → (grow pos m (.leaf bv es)).2 = .leaf bv es)
    ∧ ((grow pos m (.leaf bv es)).1 = true →
        ∃ l r, splitElems pos m es = some (l, r) ∧ l ≠ [] ∧ r ≠ [] ∧
          List.Perm (l ++ r) es ∧
          (grow pos m (.leaf bv es)).2 =
            .node bv (.leaf (boundPts m (l.map pos)) l)
              (.leaf (boundPts m (r.map pos)) r)) := by
  by_cases h1 : es.length ≤ 1
  · refine ⟨by simp [grow, h1], fun _ => by simp [grow, h1], fun htrue => ?_⟩
    exfalso
    simp [grow, h1] at htrue
  · cases h2 : splitElems pos m es with
    | none =>
      refine ⟨by simp [grow, h1, h2], fun _ => by simp [grow, h1, h2], fun htrue => ?_⟩
      exfalso
      simp [grow, h1, h2] at htrue
    | some lr =>
      obtain ⟨l, r⟩ := lr
      have hs := splitElems_some h2
      refine ⟨by simp [grow, h1, h2], fun hfalse => ?_, fun _ => ?_⟩
      · exfalso
        simp [grow, h1, h2] at hfalse
      · exact ⟨l, r, rfl, hs.2.1, hs.2.2, hs.1, by simp [grow, h1, h2]⟩

/-!  Refit changes volumes only.  -/

theorem topo_updateBounds (pos : Nat → Pt) (m : ℚ) :
    ∀ t, topoOf (updateBounds pos m t) = topoOf t := by
  intro t
  induction t with
  | leaf bv es => rfl
  | node bv l r ihl ihr => simp [updateBounds, topoOf, ihl, ihr]

theorem updateBounds_congr {pos pos2 : Nat → Pt} {m : ℚ} :
    ∀ t, (∀ x ∈ elemsUnder t, pos2 x = pos x) →
      updateBounds pos2 m t = updateBounds pos m t := by
  intro t
  induction t with
  | leaf bv es =>
    intro h
    simp only [elemsUnder] at h
    simp only [updateBounds]
    rw [List.map_congr_left h]
  | node bv l r ihl ihr =>
    intro h
    simp only [updateBounds]
    rw [ihl fun x hx => h x (by simp [elemsUnder, hx]),
      ihr fun x hx => h x (by simp [elemsUnder, hx])]

/-- C10: `update` (and `parallel_update`, which coincides with it) recomputes
bounding volumes only — the topology, i.e. parent/child structure and the
assignment of elements to leaves, is unchanged — and after perturbing the
position of a single element `e`, the refit of every subtree that does not
contain `e` (in particular every sibling subtree off the ancestor chain of
`e`'s leaf) is exactly what it was before the perturbation. -/
theorem claim_C10 (pos pos2 : Nat → Pt) (m : ℚ) (t : BVNode) (e : Nat)
    (hagree : ∀ x, x ≠ e → pos2 x = pos x) :
    topoOf (update pos2 m t) = topoOf t
    ∧ parallel_update pos2 m t = update pos2 m t
    ∧ ∀ s, Subtree s t → e ∉ elemsUnder s → update pos2 m s = update pos m s := by
  refine ⟨topo_updateBounds pos2 m t, rfl, ?_⟩
  intro s _ hnot
  exact updateBounds_congr s fun x hx => hagree x fun hxe => hnot (hxe ▸ hx)

theorem claim_C7_witness :
    numNodes (build pos0 [0, 1] 1)
        = leavesIdx (build pos0 [0, 1] 1) + numLeaves (build pos0 [0, 1] 1)
    ∧ parallel_build pos0 [0, 1] 1 = build pos0 [0, 1] 1 :=
  ⟨(claim_C7 pos0 1 [0, 1]).1, (claim_C7 pos0 1 [0, 1]).2.2.2⟩

theorem claim_C9_witness :
    ((grow pos0 0 (BVNode.leaf (boundPts 0 []) [0])).1 = false ↔
      (([0] : List Nat).length ≤ 1 ∨ splitElems pos0 0 [0] = none))
    ∧ (grow pos0 0 (BVNode.leaf (boundPts 0 []) [0])).2 = BVNode.leaf (boundPts 0 []) [0] :=
  ⟨(claim_C9 pos0 0 (boundPts 0 []) [0]).1,
   (claim_C9 pos0 0 (boundPts 0 []) [0]).2.1 (by decide)⟩

theorem claim_C10_witness :
    (∀ x : Nat, x ≠ 0 → pos0 x = pos0 x)
    ∧ topoOf (update pos0 1 tEx) = topoOf tEx :=
  ⟨fun _ _ => rfl, (claim_C10 pos0 pos0 1 tEx 0 fun _ _ => rfl).1⟩

end bvtree
end mas
